import Mathlib

/-!
# Verification of the VTtsSub subtitle pipeline

A shallow embedding, in Lean 4, of the core algorithms of the VTtsSub
video-subtitle/TTS pipeline (`video_tool/core`), together with proofs of the
behavioural properties stated in its specification.

Conventions used throughout:

* Python floats are modelled as exact rationals (`ℚ`); the few routines that
  use transcendental functions (`math.exp`, `math.log`, `math.sqrt` in the
  quality evaluator) are modelled over the reals (`ℝ`).
* Python's `round(x, n)` (round to `n` decimal digits) is modelled by
  `roundTo x n` below.  Python rounds halves to even while `roundTo` rounds
  halves up; the two agree except exactly at midpoints, and every theorem in
  this file depends only on the bound `|roundTo x n - x| ≤ 1/(2·10^n)`, which
  holds for either tie-breaking rule.
* Python strings are modelled as `List Char` (or `String` where only lengths
  matter); dictionaries carrying segment data are modelled as structures with
  the fields the claims are about.
-/

/-- Model of `round(x, n)` in Python: round `x` to `n` decimal digits. -/
def roundTo {α : Type _} [LinearOrderedField α] [FloorRing α] (x : α) (n : ℕ) : α :=
  ((round (x * 10 ^ n) : ℤ) : α) / 10 ^ n

section RoundLemmas

variable {α : Type _} [LinearOrderedField α] [FloorRing α]

lemma round_le_round {x y : α} (h : x ≤ y) : round x ≤ round y := by
  rw [round_eq, round_eq]
  exact Int.floor_le_floor (by linarith)

lemma roundTo_nonneg {x : α} (n : ℕ) (hx : 0 ≤ x) : 0 ≤ roundTo x n := by
  unfold roundTo
  have h0 : (0 : ℤ) ≤ round (x * 10 ^ n) := by
    have := round_le_round (x := (0 : α)) (y := x * 10 ^ n)
      (by positivity)
    simpa using this
  have hpow : (0 : α) < 10 ^ n := by positivity
  exact div_nonneg (by exact_mod_cast h0) (le_of_lt hpow)

lemma roundTo_le_one {x : α} (n : ℕ) (hx : x ≤ 1) : roundTo x n ≤ 1 := by
  unfold roundTo
  have h1 : round (x * 10 ^ n) ≤ round ((10 : α) ^ n) := by
    apply round_le_round
    have hpow : (0 : α) < 10 ^ n := by positivity
    nlinarith
  have h2 : round ((10 : α) ^ n) = (10 ^ n : ℤ) := by
    have : ((10 ^ n : ℤ) : α) = (10 : α) ^ n := by push_cast; ring
    rw [← this, round_intCast]
  rw [h2] at h1
  have hpow : (0 : α) < 10 ^ n := by positivity
  rw [div_le_one hpow]
  calc ((round (x * 10 ^ n) : ℤ) : α) ≤ ((10 ^ n : ℤ) : α) := by exact_mod_cast h1
    _ = 10 ^ n := by push_cast; ring

lemma abs_roundTo_sub (x : α) (n : ℕ) :
    |roundTo x n - x| ≤ 1 / (2 * 10 ^ n) := by
  have hpow : (0 : α) < 10 ^ n := by positivity
  have hx : roundTo x n - x = (((round (x * 10 ^ n) : ℤ) : α) - x * 10 ^ n) / 10 ^ n := by
    unfold roundTo
    field_simp
    ring
  rw [hx, abs_div, abs_of_pos hpow, div_le_div_iff₀ hpow (by positivity)]
  have h := abs_sub_round (x * 10 ^ n)
  rw [abs_sub_comm] at h
  nlinarith [abs_nonneg (((round (x * 10 ^ n) : ℤ) : α) - x * 10 ^ n)]

end RoundLemmas

/-! ## `SubtitleManager._fix_timestamp_overlaps` (claim C1)

`subtitle_manager.py`, lines 676–708.  The post-pass of
`align_translation_timestamps`: walking the aligned list in order, whenever the
current segment starts before the previous one ends, the previous segment's
end is shrunk to `curr_start - 0.1` — but only when that value is still
strictly greater than the previous segment's own start; otherwise the overlap
is left in place.  Only the `start`/`end` fields matter here (the Python code
also rewrites the derived `time_range` and `duration` strings of the same
segment). -/

structure ASeg where
  start : ℚ
  stop : ℚ
  deriving DecidableEq, Repr

/-- The loop body of `_fix_timestamp_overlaps`: `prev` is `fixed[-1]`, the
most recently emitted segment, which the next iteration may still shrink. -/
def fixLoop : ASeg → List ASeg → List ASeg
  | prev, [] => [prev]
  | prev, s :: rest =>
    if s.start < prev.stop then
      if prev.start < s.start - 1/10 then
        { prev with stop := s.start - 1/10 } :: fixLoop s rest
      else
        prev :: fixLoop s rest
    else
      prev :: fixLoop s rest

/-- Model of `SubtitleManager._fix_timestamp_overlaps` (lists of length < 2 are
returned unchanged, which coincides with running the loop). -/
def fixTimestampOverlaps : List ASeg → List ASeg
  | [] => []
  | s :: rest => fixLoop s rest

lemma fixLoop_ne_nil (prev : ASeg) (rest : List ASeg) : fixLoop prev rest ≠ [] := by
  cases rest with
  | nil => simp [fixLoop]
  | cons s rest =>
    unfold fixLoop
    split <;> [skip; simp]
    split <;> simp

lemma fixLoop_head_start (prev : ASeg) (rest : List ASeg) :
    (fixLoop prev rest).head?.map ASeg.start = some prev.start := by
  cases rest with
  | nil => simp [fixLoop]
  | cons s rest =>
    unfold fixLoop
    split
    · split <;> simp
    · simp

/-- After the fix pass, each adjacent pair either does not overlap, or the
unconditional-shrink escape hatch applied: the next segment starts no later
than 0.1 s after the previous segment's start. -/
lemma fixLoop_chain (rest : List ASeg) : ∀ prev : ASeg,
    List.Chain' (fun a b => a.stop ≤ b.start ∨ b.start - 1/10 ≤ a.start)
      (fixLoop prev rest) := by
  induction rest with
  | nil => intro prev; simp [fixLoop]
  | cons s rest ih =>
    intro prev
    have hhead := fixLoop_head_start s rest
    have hchain := ih s
    have hrel : ∀ x : ASeg, (x.stop ≤ s.start ∨ s.start - 1/10 ≤ x.start) →
        List.Chain' (fun a b => a.stop ≤ b.start ∨ b.start - 1/10 ≤ a.start)
          (x :: fixLoop s rest) := by
      intro x hx
      apply List.chain'_cons'.mpr
      refine ⟨?_, hchain⟩
      intro y hy
      have h2 : (fixLoop s rest).head?.map ASeg.start = some y.start := by
        rw [hy]; rfl
      have hstart : s.start = y.start := by
        have := hhead.symm.trans h2
        simpa using this
      rw [← hstart]
      exact hx
    unfold fixLoop
    split
    · next hlt =>
      split
      · next hgt =>
        apply hrel
        left
        simp
      · next hngt =>
        apply hrel
        right
        linarith [not_lt.mp hngt]
    · next hnlt =>
      apply hrel
      left
      linarith [not_lt.mp hnlt]

/-- C1, counterexample: the fix pass does **not** always remove overlaps.
With aligned segments `[0,1]` and `[0.05,2]` the candidate shrunk end
`0.05 - 0.1 = -0.05` is not above the previous start `0`, so the previous
segment keeps its end `1 > 0.05` and the output still overlaps. -/
theorem C1_no_overlap_counterexample :
    ¬ List.Chain' (fun a b : ASeg => a.stop ≤ b.start)
      (fixTimestampOverlaps [⟨0, 1⟩, ⟨1/20, 2⟩]) := by
  have : fixTimestampOverlaps [⟨0, 1⟩, ⟨1/20, 2⟩] = [⟨0, 1⟩, ⟨1/20, 2⟩] := by
    norm_num [fixTimestampOverlaps, fixLoop]
  rw [this]
  simp only [List.chain'_cons, List.chain'_singleton, and_true]
  norm_num

/-- C1, amended: for every adjacent pair of the output of
`_fix_timestamp_overlaps`, either `prev.end ≤ next.start` (no overlap), or the
shrink could not be applied because `next.start - 0.1 ≤ prev.start`. -/
theorem C1_fix_overlaps_amended (segs : List ASeg) :
    List.Chain' (fun a b => a.stop ≤ b.start ∨ b.start - 1/10 ≤ a.start)
      (fixTimestampOverlaps segs) := by
  cases segs with
  | nil => simp [fixTimestampOverlaps]
  | cons s rest => exact fixLoop_chain rest s

/-! ## `ContentAnalyzer.analyze` (claim C2)

`advanced_processor.py`, lines 65–136.  The regex machinery is abstracted
into its observable counts: `dialogueMatches`, `lectureMatches` and
`technicalMatches` are the total numbers of matches of the three pattern
lists over the concatenated text, `wordCount` is `len(all_text.split())`,
`speakerChanges` is the value of `_detect_speaker_changes`, and `termCount`
is `len(detected_terms)`.  All arithmetic downstream of those counts is
modelled exactly. -/

structure AnalyzeCounts where
  dialogueMatches : ℕ
  lectureMatches : ℕ
  technicalMatches : ℕ
  wordCount : ℕ
  speakerChanges : ℕ
  termCount : ℕ
  deriving DecidableEq, Repr

/-- Model of `ContentAnalyzer._calculate_pattern_score`: `min(score / word_count * 10, 1.0)`
with `word_count = len(text.split()) or 1`. -/
def patternScore (matchCnt wordCount : ℕ) : ℚ :=
  min ((matchCnt : ℚ) / (max wordCount 1 : ℕ) * 10) 1

/-- Raw dialogue score: pattern score plus `speaker_changes * 0.1`. -/
def rawDialogue (c : AnalyzeCounts) : ℚ :=
  patternScore c.dialogueMatches c.wordCount + (c.speakerChanges : ℚ) * (1/10)

/-- Raw lecture score: just the pattern score. -/
def rawLecture (c : AnalyzeCounts) : ℚ :=
  patternScore c.lectureMatches c.wordCount

/-- Raw technical score: pattern score plus `len(detected_terms) * 0.05`. -/
def rawTechnical (c : AnalyzeCounts) : ℚ :=
  patternScore c.technicalMatches c.wordCount + (c.termCount : ℚ) * (5/100)

/-- Model of `total = sum(scores.values()) or 1` (Python: `0.0` is falsy). -/
def analyzeTotal (c : AnalyzeCounts) : ℚ :=
  if rawDialogue c + rawLecture c + rawTechnical c = 0 then 1
  else rawDialogue c + rawLecture c + rawTechnical c

structure ContentAnalysis where
  contentType : String
  confidence : ℚ
  scoreDialogue : ℚ
  scoreLecture : ℚ
  scoreTechnical : ℚ
  deriving DecidableEq, Repr

/-- Model of `ContentAnalyzer.analyze` downstream of the counts: normalisation, type
selection (`max(scores, key=scores.get)` returns the first maximal key in
insertion order dialogue, lecture, technical) and the rounding applied to the
returned dictionary. -/
def analyze (c : AnalyzeCounts) : ContentAnalysis :=
  let nd := rawDialogue c / analyzeTotal c
  let nl := rawLecture c / analyzeTotal c
  let nt := rawTechnical c / analyzeTotal c
  let conf := max nd (max nl nt)
  let ctype :=
    if conf < 2/5 then "mixed"
    else if nd ≥ nl ∧ nd ≥ nt then "dialogue"
    else if nl ≥ nt then "lecture"
    else "technical"
  ⟨ctype, roundTo conf 3, roundTo nd 3, roundTo nl 3, roundTo nt 3⟩

lemma patternScore_nonneg (m w : ℕ) : 0 ≤ patternScore m w := by
  unfold patternScore
  apply le_min
  · positivity
  · norm_num

lemma rawDialogue_nonneg (c : AnalyzeCounts) : 0 ≤ rawDialogue c := by
  unfold rawDialogue
  have := patternScore_nonneg c.dialogueMatches c.wordCount
  positivity

lemma rawLecture_nonneg (c : AnalyzeCounts) : 0 ≤ rawLecture c :=
  patternScore_nonneg _ _

lemma rawTechnical_nonneg (c : AnalyzeCounts) : 0 ≤ rawTechnical c := by
  unfold rawTechnical
  have := patternScore_nonneg c.technicalMatches c.wordCount
  positivity

lemma analyzeTotal_pos (c : AnalyzeCounts) : 0 < analyzeTotal c := by
  unfold analyzeTotal
  split
  · norm_num
  · next h =>
    rcases lt_or_eq_of_le (by
      have h1 := rawDialogue_nonneg c
      have h2 := rawLecture_nonneg c
      have h3 := rawTechnical_nonneg c
      linarith : (0:ℚ) ≤ rawDialogue c + rawLecture c + rawTechnical c) with h' | h'
    · exact h'
    · exact absurd h'.symm h

/-- C2, counterexample: a non-empty input whose concatenated text `"xx"`
matches none of the regex patterns (all match counts, speaker changes and
detected terms are 0, and the word count is 1).  The raw scores are all 0,
`total` falls back to 1, and the normalized scores sum to 0, not 1. -/
theorem C2_scores_sum_counterexample :
    (analyze ⟨0, 0, 0, 1, 0, 0⟩).scoreDialogue +
      (analyze ⟨0, 0, 0, 1, 0, 0⟩).scoreLecture +
      (analyze ⟨0, 0, 0, 1, 0, 0⟩).scoreTechnical = 0 ∧
    ¬ |(analyze ⟨0, 0, 0, 1, 0, 0⟩).scoreDialogue +
        (analyze ⟨0, 0, 0, 1, 0, 0⟩).scoreLecture +
        (analyze ⟨0, 0, 0, 1, 0, 0⟩).scoreTechnical - 1| ≤ 3/2000 := by
  norm_num [analyze, analyzeTotal, rawDialogue, rawLecture, rawTechnical,
    patternScore, roundTo]

/-- C2, amended: every returned score lies in [0,1]; whenever at least one
raw score is non-zero the returned (3-decimal-rounded) scores sum to 1 within
3·5e-4; but when the text matches no pattern at all (all raw scores 0) the
returned scores are all 0.  The `Mixed` rule holds as stated: if the maximum
normalized score is below 0.4, the content type is `"mixed"`. -/
theorem C2_scores_amended (c : AnalyzeCounts) :
    (0 ≤ (analyze c).scoreDialogue ∧ (analyze c).scoreDialogue ≤ 1) ∧
    (0 ≤ (analyze c).scoreLecture ∧ (analyze c).scoreLecture ≤ 1) ∧
    (0 ≤ (analyze c).scoreTechnical ∧ (analyze c).scoreTechnical ≤ 1) ∧
    (rawDialogue c + rawLecture c + rawTechnical c = 0 →
      (analyze c).scoreDialogue = 0 ∧ (analyze c).scoreLecture = 0 ∧
        (analyze c).scoreTechnical = 0) ∧
    (rawDialogue c + rawLecture c + rawTechnical c ≠ 0 →
      |(analyze c).scoreDialogue + (analyze c).scoreLecture +
        (analyze c).scoreTechnical - 1| ≤ 3/2000) ∧
    (max (rawDialogue c / analyzeTotal c)
        (max (rawLecture c / analyzeTotal c) (rawTechnical c / analyzeTotal c)) < 2/5 →
      (analyze c).contentType = "mixed") := by
  have htot := analyzeTotal_pos c
  have hd0 := rawDialogue_nonneg c
  have hl0 := rawLecture_nonneg c
  have ht0 := rawTechnical_nonneg c
  have hle : rawDialogue c ≤ analyzeTotal c ∧ rawLecture c ≤ analyzeTotal c ∧
      rawTechnical c ≤ analyzeTotal c := by
    unfold analyzeTotal
    split
    · next h => exact ⟨by linarith, by linarith, by linarith⟩
    · next h => exact ⟨by linarith, by linarith, by linarith⟩
  have hdle : rawDialogue c / analyzeTotal c ≤ 1 ∧
      rawLecture c / analyzeTotal c ≤ 1 ∧ rawTechnical c / analyzeTotal c ≤ 1 :=
    ⟨(div_le_one htot).mpr hle.1, (div_le_one htot).mpr hle.2.1,
      (div_le_one htot).mpr hle.2.2⟩
  refine ⟨⟨?_, ?_⟩, ⟨?_, ?_⟩, ⟨?_, ?_⟩, ?_, ?_, ?_⟩
  · exact roundTo_nonneg 3 (by positivity)
  · exact roundTo_le_one 3 hdle.1
  · exact roundTo_nonneg 3 (by positivity)
  · exact roundTo_le_one 3 hdle.2.1
  · exact roundTo_nonneg 3 (by positivity)
  · exact roundTo_le_one 3 hdle.2.2
  · intro h
    have hdz : rawDialogue c = 0 := by linarith
    have hlz : rawLecture c = 0 := by linarith
    have htz : rawTechnical c = 0 := by linarith
    simp [analyze, hdz, hlz, htz, roundTo]
  · intro h
    have hsum : rawDialogue c / analyzeTotal c + rawLecture c / analyzeTotal c +
        rawTechnical c / analyzeTotal c = 1 := by
      rw [div_add_div_same, div_add_div_same]
      rw [div_eq_one_iff_eq (ne_of_gt htot)]
      unfold analyzeTotal
      split
      · next h' => exact absurd h' h
      · rfl
    have e1 := abs_roundTo_sub (rawDialogue c / analyzeTotal c) 3
    have e2 := abs_roundTo_sub (rawLecture c / analyzeTotal c) 3
    have e3 := abs_roundTo_sub (rawTechnical c / analyzeTotal c) 3
    show |roundTo (rawDialogue c / analyzeTotal c) 3 +
        roundTo (rawLecture c / analyzeTotal c) 3 +
        roundTo (rawTechnical c / analyzeTotal c) 3 - 1| ≤ 3/2000
    rw [← hsum]
    rw [abs_le] at e1 e2 e3 ⊢
    norm_num at e1 e2 e3 ⊢
    constructor <;> linarith
  · intro h
    show (if _ < 2/5 then "mixed" else _) = "mixed"
    rw [if_pos h]

/-! ## `SubtitleManager.export_tts_alignment_data` (claim C4)

`subtitle_manager.py`, lines 710–756.  The exporter rounds each segment's
`start`, `end`, `duration` and `original_duration` to 3 decimal digits, copies
`speed_adjustment` verbatim, and rounds `metadata.total_duration = max end`
to 2 decimal digits.  Serialising the resulting document with `json.dump` and
re-parsing it with `json.load` is the identity on these numeric fields, so
the parse step is modelled as the identity and the claims are stated directly
about the exported values. -/

structure AlignedFull where
  start : ℚ
  stop : ℚ
  duration : ℚ
  speed : ℚ
  origDuration : ℚ
  deriving DecidableEq, Repr

structure ExportSeg where
  start : ℚ
  stop : ℚ
  duration : ℚ
  speed : ℚ
  origDuration : ℚ
  deriving DecidableEq, Repr

/-- The per-segment entry written into `tts_data["segments"]`. -/
def exportSeg (s : AlignedFull) : ExportSeg :=
  ⟨roundTo s.start 3, roundTo s.stop 3, roundTo s.duration 3,
    s.speed, roundTo s.origDuration 3⟩

/-- Model of `max(seg['end'] for seg in aligned_segments)` (0 for the empty list, as in
the code's `else` branch). -/
def maxEnd : List AlignedFull → ℚ
  | [] => 0
  | s :: rest => (rest.map AlignedFull.stop).foldl max s.stop

/-- Model of `tts_data["metadata"]["total_duration"] = round(total_duration, 2)`. -/
def exportTotalDuration (l : List AlignedFull) : ℚ :=
  if l = [] then 0 else roundTo (maxEnd l) 2

/-- C4, counterexample: a single aligned segment ending at `1.234` s.  The
exported `metadata.total_duration` is `round(1.234, 2) = 1.23`, which differs
from the in-memory maximum end time by `0.004 > 1e-3`. -/
theorem C4_export_roundtrip_counterexample :
    ¬ |exportTotalDuration [⟨0, 1234/1000, 1234/1000, 1, 1234/1000⟩] -
        maxEnd [⟨0, 1234/1000, 1234/1000, 1, 1234/1000⟩]| ≤ 1/1000 := by
  have h1 : maxEnd [(⟨0, 1234/1000, 1234/1000, 1, 1234/1000⟩ : AlignedFull)] =
      1234/1000 := by
    norm_num [maxEnd]
  have h2 : exportTotalDuration [⟨0, 1234/1000, 1234/1000, 1, 1234/1000⟩] =
      123/100 := by
    rw [exportTotalDuration, if_neg (by simp), h1]
    norm_num [roundTo, round_eq]
  rw [h1, h2]
  rw [show (123:ℚ)/100 - 1234/1000 = -(1/250) by norm_num, abs_neg,
    abs_of_pos (by norm_num : (0:ℚ) < 1/250)]
  norm_num

/-- C4, amended: every per-segment numeric field of the exported document
matches the in-memory aligned segment within 1e-3 (`speed_adjustment` is
copied exactly), but `metadata.total_duration`, rounded to two decimals, is
only guaranteed to match the in-memory maximum end time within 5e-3. -/
theorem C4_export_roundtrip_amended (l : List AlignedFull) :
    (∀ s ∈ l,
      |(exportSeg s).start - s.start| ≤ 1/1000 ∧
      |(exportSeg s).stop - s.stop| ≤ 1/1000 ∧
      |(exportSeg s).duration - s.duration| ≤ 1/1000 ∧
      (exportSeg s).speed = s.speed ∧
      |(exportSeg s).origDuration - s.origDuration| ≤ 1/1000) ∧
    |exportTotalDuration l - (if l = [] then 0 else maxEnd l)| ≤ 1/200 := by
  constructor
  · intro s _
    have h1 := abs_roundTo_sub s.start 3
    have h2 := abs_roundTo_sub s.stop 3
    have h3 := abs_roundTo_sub s.duration 3
    have h4 := abs_roundTo_sub s.origDuration 3
    norm_num [exportSeg] at h1 h2 h3 h4 ⊢
    exact ⟨by linarith, by linarith, by linarith, by linarith⟩
  · unfold exportTotalDuration
    split
    · simp
    · have h := abs_roundTo_sub (maxEnd l) 2
      norm_num at h ⊢
      exact h

/-- C4, witness for the amended theorem at a concrete aligned list. -/
theorem C4_export_roundtrip_amended_witness :
    |exportTotalDuration [(⟨0, 1, 1, 1, 1⟩ : AlignedFull)] -
      (if ([(⟨0, 1, 1, 1, 1⟩ : AlignedFull)] : List AlignedFull) = [] then 0
        else maxEnd [(⟨0, 1, 1, 1, 1⟩ : AlignedFull)])| ≤ 1/200 :=
  (C4_export_roundtrip_amended [⟨0, 1, 1, 1, 1⟩]).2

/-! ## `SubtitleManager._calculate_aligned_timestamps` (claim C6)

`subtitle_manager.py`, lines 629–674.  Inputs: the original `start_time`,
`end_time`, `orig_duration = end_time - start_time`, and the estimated TTS
duration `estimated_duration = len(trans_text) / target_rate` computed by the
caller `align_translation_timestamps`.  The returned dictionary rounds
`speed_adjustment` and `duration_ratio` to two decimal digits.

The claim's scenario — original segment `{0.0, 2.0, "Hi."}` (3 characters in
2 s, original pacing 1.5 chars/s) whose translation has 6 characters and a
pacing constant of 0.75 chars/s — yields `estimated_duration = 6 / 0.75 = 8`
and corresponds to `calcAlignedTimestamps 0 2 2 8`. -/

structure AlignedTs where
  start : ℚ
  stop : ℚ
  duration : ℚ
  estTts : ℚ
  speed : ℚ
  ratio : ℚ
  deriving DecidableEq, Repr

/-- Model of `SubtitleManager._calculate_aligned_timestamps`. -/
def calcAlignedTimestamps (startT endT origDur est : ℚ) : AlignedTs :=
  let ratio := if 0 < origDur then est / origDur else 1
  if ratio ≤ 1 then
    ⟨startT, endT, endT - startT, est, roundTo 1 2, roundTo ratio 2⟩
  else if ratio ≤ 13/10 then
    ⟨startT, endT + (est - origDur) * (1/2), endT + (est - origDur) * (1/2) - startT,
      est, roundTo 1 2, roundTo ratio 2⟩
  else
    ⟨startT, endT + min (est - origDur) (origDur * (1/2)),
      endT + min (est - origDur) (origDur * (1/2)) - startT, est,
      roundTo (est / (endT + min (est - origDur) (origDur * (1/2)) - startT)) 2,
      roundTo ratio 2⟩

/-- C6, counterexample: at the claim's own scenario input the returned
`speed_adjustment` is `round(8/3, 2) = 2.67`, not the exact quotient
`estimated_duration / (new_end - start) = 8/3`. -/
theorem C6_alignment_policy_counterexample :
    (calcAlignedTimestamps 0 2 2 8).speed ≠
      (calcAlignedTimestamps 0 2 2 8).estTts /
        ((calcAlignedTimestamps 0 2 2 8).stop - (calcAlignedTimestamps 0 2 2 8).start) := by
  have h : calcAlignedTimestamps 0 2 2 8 =
      ⟨0, 3, 3, 8, 267/100, 4⟩ := by
    norm_num [calcAlignedTimestamps, roundTo, round_eq]
  rw [h]
  norm_num

/-- C6, amended: with `orig_duration > 0` and
`ratio = estimated_duration / orig_duration`: if `ratio ≤ 1.0` the end time is
unchanged and `speed_adjustment = 1.0`; if `1.0 < ratio ≤ 1.3` the end is
extended by half the excess and `speed_adjustment = 1.0`; otherwise the end is
extended by `min(excess, orig_duration/2)` and `speed_adjustment` is
`estimated / (new_end - start)` **rounded to two decimals**.  At the scenario
input `(0, 2, 2, 8)` the ratio is 4, the extension is capped at 1 s and the
reported speed adjustment exceeds 1. -/
theorem C6_alignment_policy_amended (startT endT origDur est : ℚ)
    (h : 0 < origDur) :
    (est / origDur ≤ 1 →
      (calcAlignedTimestamps startT endT origDur est).stop = endT ∧
      (calcAlignedTimestamps startT endT origDur est).speed = 1) ∧
    (1 < est / origDur → est / origDur ≤ 13/10 →
      (calcAlignedTimestamps startT endT origDur est).stop =
        endT + (est - origDur) / 2 ∧
      (calcAlignedTimestamps startT endT origDur est).speed = 1) ∧
    (13/10 < est / origDur →
      (calcAlignedTimestamps startT endT origDur est).stop =
        endT + min (est - origDur) (origDur / 2) ∧
      (calcAlignedTimestamps startT endT origDur est).speed =
        roundTo (est / ((calcAlignedTimestamps startT endT origDur est).stop - startT)) 2) ∧
    ((calcAlignedTimestamps 0 2 2 8).ratio = 4 ∧
      (calcAlignedTimestamps 0 2 2 8).stop - 2 ≤ 1 ∧
      1 < (calcAlignedTimestamps 0 2 2 8).speed) := by
  have hr1 : roundTo (1:ℚ) 2 = 1 := by norm_num [roundTo, round_eq]
  refine ⟨?_, ?_, ?_, ?_⟩
  · intro hle
    unfold calcAlignedTimestamps
    rw [if_pos h]
    rw [if_pos hle]
    exact ⟨rfl, hr1⟩
  · intro hgt hle
    unfold calcAlignedTimestamps
    rw [if_pos h]
    rw [if_neg (not_le.mpr hgt), if_pos hle]
    constructor
    · show endT + (est - origDur) * (1/2) = endT + (est - origDur) / 2
      ring
    · exact hr1
  · intro hgt
    unfold calcAlignedTimestamps
    rw [if_pos h]
    rw [if_neg (not_le.mpr (lt_trans (by norm_num) hgt)),
      if_neg (not_le.mpr hgt)]
    constructor
    · show endT + min (est - origDur) (origDur * (1/2)) =
        endT + min (est - origDur) (origDur / 2)
      ring_nf
    · rfl
  · refine ⟨?_, ?_, ?_⟩ <;> norm_num [calcAlignedTimestamps, roundTo, round_eq]

/-- C6, witness: the amended theorem applied at the scenario input
`(start, end, orig_duration, estimated) = (0, 2, 2, 8)`. -/
theorem C6_alignment_policy_amended_witness :
    (13/10 < (8:ℚ) / 2 →
      (calcAlignedTimestamps 0 2 2 8).stop = 2 + min (8 - 2) (2 / 2) ∧
      (calcAlignedTimestamps 0 2 2 8).speed =
        roundTo (8 / ((calcAlignedTimestamps 0 2 2 8).stop - 0)) 2) ∧
    (0:ℚ) < 2 :=
  ⟨(C6_alignment_policy_amended 0 2 2 8 (by norm_num)).2.2.1, by norm_num⟩

/-! ## Character-list toolbox

Python strings are modelled as `List Char`.  `isWsC` models the whitespace
class of `str.strip`/`str.split` (space, tab, newline, carriage return;
Python additionally strips `\f`/`\v` and Unicode spaces, which never occur in
the claims' inputs). -/

def isWsC (c : Char) : Bool :=
  c == ' ' || c == '\t' || c == '\n' || c == '\r'

/-- Python `str.strip()`. -/
def stripL (cs : List Char) : List Char :=
  (cs.dropWhile isWsC).rdropWhile isWsC

/-- Python `str.rstrip(chars)` for an explicit character set. -/
def rstripSet (chars : List Char) (cs : List Char) : List Char :=
  cs.rdropWhile (fun c => chars.contains c)

/-- Whitespace-run splitter: the chunks of `cs` between whitespace characters
(possibly empty).  `wordsOf` below models Python `str.split()`. -/
def splitWsChunks : List Char → List (List Char)
  | [] => [[]]
  | c :: cs =>
    if isWsC c then [] :: splitWsChunks cs
    else
      match splitWsChunks cs with
      | [] => [[c]]
      | g :: gs => (c :: g) :: gs

/-- Python `str.split()` (split on whitespace runs, dropping empty pieces). -/
def wordsOf (cs : List Char) : List (List Char) :=
  (splitWsChunks cs).filter (· ≠ [])

/-- Python `a.startswith(pat)` on character lists (`pat` first). -/
def startsWithL : List Char → List Char → Bool
  | [], _ => true
  | _ :: _, [] => false
  | p :: ps, c :: cs => p == c && startsWithL ps cs

/-- Python `pat in s` (substring containment). -/
def containsSub (pat : List Char) : List Char → Bool
  | [] => startsWithL pat []
  | c :: cs => startsWithL pat (c :: cs) || containsSub pat cs

def lowerL (cs : List Char) : List Char :=
  cs.map Char.toLower

/-! ## `AdaptiveSegmenter._split_by_questions` (claim C5)

`advanced_processor.py`, lines 355–378.  `re.split(r'(\?)', text)` cuts the
text into pieces alternating with the captured `'?'` separators; the loop
accumulates pieces into `current_text`, attempting an emission at every `'?'`
part and at the final part.  Equivalently, the text is cut into *chunks*, each
ending right after a `'?'` (plus the trailing remainder); `chunkAfterQ`
computes those chunks directly.  A chunk is emitted iff its `strip()` is
non-empty; `k` is `len(result)` at emission time, and the denominator
`max(1, len(parts) // 2)` equals `max 1 (text.count '?')` since `re.split`
returns `2·#'?' + 1` parts. -/

structure Seg where
  start : ℚ
  stop : ℚ
  text : List Char
  deriving DecidableEq, Repr

/-- The chunks of `text`, cutting right after every `'?'`. -/
def chunkAfterQ : List Char → List (List Char)
  | [] => [[]]
  | c :: rest =>
    if c = '?' then [c] :: chunkAfterQ rest
    else
      match chunkAfterQ rest with
      | [] => [[c]]
      | g :: gs => (c :: g) :: gs

/-- The emission loop of `_split_by_questions`: `s` is the original start,
`dur` the original duration, `L = len(text)`, `n = len(parts) // 2` and `k`
the number of segments emitted so far. -/
def emitChunks (s dur : ℚ) (L n : ℕ) : List (List Char) → ℕ → List Seg
  | [], _ => []
  | c :: rest, k =>
    if stripL c = [] then emitChunks s dur L n rest k
    else
      ⟨s + (dur - dur * ((c.length : ℚ) / (L : ℚ))) * ((k : ℚ) / (max 1 n : ℕ)),
        s + (dur - dur * ((c.length : ℚ) / (L : ℚ))) * ((k : ℚ) / (max 1 n : ℕ)) +
          dur * ((c.length : ℚ) / (L : ℚ)),
        stripL c⟩ :: emitChunks s dur L n rest (k + 1)

/-- Model of `AdaptiveSegmenter._split_by_questions` (falling back to the original
segment when nothing was emitted). -/
def splitByQuestions (text : List Char) (s e : ℚ) : List Seg :=
  if emitChunks s (e - s) text.length (text.count '?') (chunkAfterQ text) 0 = [] then
    [⟨s, e, text⟩]
  else
    emitChunks s (e - s) text.length (text.count '?') (chunkAfterQ text) 0

lemma chunkAfterQ_ne_nil (cs : List Char) : chunkAfterQ cs ≠ [] := by
  cases cs with
  | nil => simp [chunkAfterQ]
  | cons c rest =>
    unfold chunkAfterQ
    split
    · simp
    · split <;> simp

lemma chunkAfterQ_length (cs : List Char) :
    (chunkAfterQ cs).length = cs.count '?' + 1 := by
  induction cs with
  | nil => simp [chunkAfterQ]
  | cons c rest ih =>
    unfold chunkAfterQ
    split
    · next h =>
      simp [List.count_cons, h, ih]
    · next h =>
      have hne := chunkAfterQ_ne_nil rest
      cases hcq : chunkAfterQ rest with
      | nil => exact absurd hcq hne
      | cons g gs =>
        simp only [hcq] at ih
        simp [List.count_cons, h, ih.symm]

lemma chunkAfterQ_chunk_length_le (cs : List Char) :
    ∀ c ∈ chunkAfterQ cs, c.length ≤ cs.length := by
  induction cs with
  | nil => simp [chunkAfterQ]
  | cons a rest ih =>
    unfold chunkAfterQ
    split
    · intro c hc
      rcases List.mem_cons.mp hc with h | h
      · simp [h]
      · have := ih c h
        simp only [List.length_cons]
        omega
    · cases hcq : chunkAfterQ rest with
      | nil => exact absurd hcq (chunkAfterQ_ne_nil rest)
      | cons g gs =>
        intro c hc
        rcases List.mem_cons.mp hc with h | h
        · have hg : g.length ≤ rest.length := ih g (by rw [hcq]; exact List.mem_cons_self g gs)
          subst h
          simp only [List.length_cons]
          omega
        · have := ih c (by rw [hcq]; exact List.mem_cons_of_mem g h)
          simp only [List.length_cons]
          omega

lemma emitChunks_spec (s dur : ℚ) (L n : ℕ) (hdur : 0 ≤ dur) (hL : 0 < L)
    (chunks : List (List Char)) :
    ∀ k : ℕ, k + chunks.length ≤ n + 1 →
      (∀ c ∈ chunks, c.length ≤ L) →
      ∀ seg ∈ emitChunks s dur L n chunks k,
        s ≤ seg.start ∧ seg.start ≤ seg.stop ∧ seg.stop ≤ s + dur ∧
        ∃ m : ℕ, m ≤ L ∧ seg.stop - seg.start = dur * m / L := by
  induction chunks with
  | nil => intro k _ _ seg hseg; simp [emitChunks] at hseg
  | cons c rest ih =>
    intro k hk hlen seg hseg
    unfold emitChunks at hseg
    split at hseg
    · exact ih k (by simp at hk ⊢; omega)
        (fun d hd => hlen d (List.mem_cons_of_mem c hd)) seg hseg
    · rcases List.mem_cons.mp hseg with hhead | htail
      · subst hhead
        have hcl : (c.length : ℚ) ≤ (L : ℚ) := by
          exact_mod_cast hlen c (List.mem_cons_self c rest)
        have hLq : (0:ℚ) < (L : ℚ) := by exact_mod_cast hL
        have hratio1 : (c.length : ℚ) / (L : ℚ) ≤ 1 := (div_le_one hLq).mpr hcl
        have hratio0 : (0:ℚ) ≤ (c.length : ℚ) / (L : ℚ) := by positivity
        have hsd0 : (0:ℚ) ≤ dur * ((c.length : ℚ) / (L : ℚ)) := by positivity
        have hsdle : dur * ((c.length : ℚ) / (L : ℚ)) ≤ dur := by nlinarith
        have hkn : k ≤ max 1 n := by
          simp only [List.length_cons] at hk
          omega
        have hmaxpos : (0:ℚ) < ((max 1 n : ℕ) : ℚ) := by
          have : 0 < max 1 n := by omega
          exact_mod_cast this
        have hq0 : (0:ℚ) ≤ (k : ℚ) / ((max 1 n : ℕ) : ℚ) := by positivity
        have hq1 : (k : ℚ) / ((max 1 n : ℕ) : ℚ) ≤ 1 :=
          (div_le_one hmaxpos).mpr (by exact_mod_cast hkn)
        refine ⟨?_, ?_, ?_, c.length, hlen c (List.mem_cons_self c rest), ?_⟩
        · show s ≤ s + (dur - dur * ((c.length : ℚ) / (L : ℚ))) * ((k : ℚ) / ((max 1 n : ℕ) : ℚ))
          nlinarith
        · show s + _ ≤ s + _ + dur * ((c.length : ℚ) / (L : ℚ))
          linarith
        · show s + (dur - dur * ((c.length : ℚ) / (L : ℚ))) * ((k : ℚ) / ((max 1 n : ℕ) : ℚ)) +
            dur * ((c.length : ℚ) / (L : ℚ)) ≤ s + dur
          nlinarith
        · show s + _ + dur * ((c.length : ℚ) / (L : ℚ)) - (s + _) = dur * (c.length : ℚ) / (L : ℚ)
          ring
      · exact ih (k + 1) (by simp at hk ⊢; omega)
          (fun d hd => hlen d (List.mem_cons_of_mem c hd)) seg htail

/-- Some chunk contains the question mark whenever the text does. -/
lemma chunkAfterQ_exists_q {cs : List Char} (h : '?' ∈ cs) :
    ∃ c ∈ chunkAfterQ cs, '?' ∈ c := by
  induction cs with
  | nil => simp at h
  | cons a rest ih =>
    by_cases ha : a = '?'
    · subst ha
      refine ⟨['?'], ?_, by simp⟩
      unfold chunkAfterQ
      rw [if_pos rfl]
      exact List.mem_cons_self _ _
    · have h' : '?' ∈ rest := by
        rcases List.mem_cons.mp h with h1 | h1
        · exact absurd h1.symm ha
        · exact h1
      obtain ⟨c, hc, hqc⟩ := ih h'
      unfold chunkAfterQ
      rw [if_neg ha]
      cases hcq : chunkAfterQ rest with
      | nil => exact absurd hcq (chunkAfterQ_ne_nil rest)
      | cons g gs =>
        rw [hcq] at hc
        rcases List.mem_cons.mp hc with h2 | h2
        · subst h2
          exact ⟨a :: c, List.mem_cons_self _ _, List.mem_cons_of_mem a hqc⟩
        · exact ⟨c, List.mem_cons_of_mem _ h2, hqc⟩

/-- A list containing a non-whitespace character does not strip to empty. -/
lemma stripL_ne_nil_of_mem {cs : List Char} {x : Char} (hx : x ∈ cs)
    (hws : isWsC x = false) : stripL cs ≠ [] := by
  intro h0
  unfold stripL at h0
  have hall : ∀ y ∈ cs.dropWhile isWsC, isWsC y :=
    List.rdropWhile_eq_nil_iff.mp h0
  have hally : isWsC x = true := by
    rw [← List.takeWhile_append_dropWhile (p := isWsC) (l := cs)] at hx
    rcases List.mem_append.mp hx with h1 | h1
    · exact List.mem_takeWhile_imp h1
    · exact hall x h1
  rw [hally] at hws
  simp at hws

/-- The emission loop emits at least one segment when some chunk strips to a
non-empty text. -/
lemma emitChunks_ne_nil_of_kept (s dur : ℚ) (L n : ℕ) :
    ∀ (chunks : List (List Char)) (k : ℕ),
      (∃ c ∈ chunks, stripL c ≠ []) → emitChunks s dur L n chunks k ≠ [] := by
  intro chunks
  induction chunks with
  | nil => intro k h; simp at h
  | cons c rest ih =>
    intro k h
    unfold emitChunks
    by_cases hc : stripL c = []
    · rw [if_pos hc]
      apply ih k
      obtain ⟨c0, hc0, hs0⟩ := h
      rcases List.mem_cons.mp hc0 with h1 | h1
      · rw [h1] at hs0
        exact absurd hc hs0
      · exact ⟨c0, h1, hs0⟩
    · rw [if_neg hc]
      simp

/-- When the text contains a `'?'` the fallback branch of
`_split_by_questions` is never taken. -/
lemma splitByQuestions_eq_emit {text : List Char} (s e : ℚ) (hq : '?' ∈ text) :
    splitByQuestions text s e =
      emitChunks s (e - s) text.length (text.count '?') (chunkAfterQ text) 0 := by
  unfold splitByQuestions
  rw [if_neg]
  apply emitChunks_ne_nil_of_kept
  obtain ⟨c, hc, hqc⟩ := chunkAfterQ_exists_q hq
  exact ⟨c, hc, stripL_ne_nil_of_mem hqc (by decide)⟩

/-- The chunks that actually get emitted: those whose `strip()` is non-empty,
in order. -/
def keptChunks (text : List Char) : List (List Char) :=
  (chunkAfterQ text).filter (fun c => decide (stripL c ≠ []))

/-- The emission loop emits exactly one segment per kept chunk, in order: its
text is the stripped chunk and its duration is `dur` times the chunk's
character share `len(chunk) / L`. -/
lemma emitChunks_map (s dur : ℚ) (L n : ℕ) :
    ∀ (chunks : List (List Char)) (k : ℕ),
      (emitChunks s dur L n chunks k).map Seg.text =
        (chunks.filter (fun c => decide (stripL c ≠ []))).map stripL ∧
      (emitChunks s dur L n chunks k).map (fun g => g.stop - g.start) =
        (chunks.filter (fun c => decide (stripL c ≠ []))).map
          (fun c => dur * ((c.length : ℚ) / (L : ℚ))) := by
  intro chunks
  induction chunks with
  | nil => intro k; simp [emitChunks]
  | cons c rest ih =>
    intro k
    unfold emitChunks
    by_cases h : stripL c = []
    · rw [if_pos h]
      have hf : (c :: rest).filter (fun d => decide (stripL d ≠ [])) =
          rest.filter (fun d => decide (stripL d ≠ [])) := by
        rw [List.filter_cons, if_neg (by simp [h])]
      rw [hf]
      exact ih k
    · rw [if_neg h]
      have hf : (c :: rest).filter (fun d => decide (stripL d ≠ [])) =
          c :: rest.filter (fun d => decide (stripL d ≠ [])) := by
        rw [List.filter_cons, if_pos (by simp [h])]
      rw [hf]
      refine ⟨?_, ?_⟩
      · simp only [List.map_cons]
        rw [(ih (k + 1)).1]
      · simp only [List.map_cons]
        rw [(ih (k + 1)).2]
        congr 1
        ring

/-- C5, counterexample: splitting `"A? B?"` spanning `[0, 1]` emits
`[0, 0.4]` for `"A?"` and `[0.2, 0.8]` for `"B?"` — the second sub-span
starts before the first one ends, so the sub-spans do not tile the original
timing and they overlap. -/
theorem C5_split_questions_counterexample :
    splitByQuestions ['A', '?', ' ', 'B', '?'] 0 1 =
      [⟨0, 2/5, ['A', '?']⟩, ⟨1/5, 4/5, ['B', '?']⟩] ∧
    ¬ List.Chain' (fun a b : Seg => a.stop ≤ b.start)
      (splitByQuestions ['A', '?', ' ', 'B', '?'] 0 1) := by
  have h : splitByQuestions ['A', '?', ' ', 'B', '?'] 0 1 =
      [⟨0, 2/5, ['A', '?']⟩, ⟨1/5, 4/5, ['B', '?']⟩] := by
    have hch : chunkAfterQ [' ', 'B', '?'] = [[' ', 'B', '?'], []] := by
      simp [chunkAfterQ]
    have hch2 : chunkAfterQ ['A', '?', ' ', 'B', '?'] = [['A', '?'], [' ', 'B', '?'], []] := by
      simp [chunkAfterQ, hch]
    have hs1 : stripL ['A', '?'] = ['A', '?'] := by decide
    have hs2 : stripL [' ', 'B', '?'] = ['B', '?'] := by decide
    have hs3 : stripL ([] : List Char) = [] := by decide
    have hcount : (['A', '?', ' ', 'B', '?'] : List Char).count '?' = 2 := by decide
    have hlen : (['A', '?', ' ', 'B', '?'] : List Char).length = 5 := by decide
    unfold splitByQuestions
    rw [hch2, hcount, hlen]
    simp only [emitChunks, hs1, hs2, hs3]
    norm_num
    simp
  refine ⟨h, ?_⟩
  rw [h]
  simp only [List.chain'_cons, List.chain'_singleton, and_true]
  norm_num

/-- C5, amended: the sub-segments emitted by `_split_by_questions` correspond
one-to-one, in order, with the question chunks whose `strip()` is non-empty.
Each sub-segment carries the stripped chunk as its text and its duration is
the covered duration times **that** chunk's character share of the original
text, and every sub-span lies within the original `[start, end]`; but
consecutive sub-spans need not tile the covered timing and may overlap. -/
theorem C5_split_questions_amended (text : List Char) (s e : ℚ)
    (hq : '?' ∈ text) (hse : s ≤ e) :
    (∀ seg ∈ splitByQuestions text s e,
      s ≤ seg.start ∧ seg.start ≤ seg.stop ∧ seg.stop ≤ e) ∧
    (splitByQuestions text s e).map Seg.text = (keptChunks text).map stripL ∧
    (splitByQuestions text s e).map (fun g => g.stop - g.start) =
      (keptChunks text).map
        (fun c => (e - s) * (c.length : ℚ) / (text.length : ℚ)) := by
  have hL : 0 < text.length := by
    cases text with
    | nil => simp at hq
    | cons a t => simp
  have heq := splitByQuestions_eq_emit s e hq
  refine ⟨?_, ?_, ?_⟩
  · intro seg hseg
    rw [heq] at hseg
    have hspec := emitChunks_spec s (e - s) text.length (text.count '?')
      (by linarith) hL (chunkAfterQ text) 0
      (by rw [chunkAfterQ_length]; omega)
      (chunkAfterQ_chunk_length_le text) seg hseg
    exact ⟨hspec.1, hspec.2.1, by linarith [hspec.2.2.1]⟩
  · rw [heq]
    exact (emitChunks_map s (e - s) text.length (text.count '?')
      (chunkAfterQ text) 0).1
  · rw [heq,
      (emitChunks_map s (e - s) text.length (text.count '?')
        (chunkAfterQ text) 0).2]
    unfold keptChunks
    apply List.map_congr_left
    intro c _
    rw [mul_div_assoc]

/-- C5, witness: the amended theorem applied to the split of `"?"` over
`[0, 1]`. -/
theorem C5_split_questions_amended_witness :
    '?' ∈ (['?'] : List Char) ∧ (0:ℚ) ≤ 1 ∧
    ((∀ seg ∈ splitByQuestions ['?'] 0 1,
        (0:ℚ) ≤ seg.start ∧ seg.start ≤ seg.stop ∧ seg.stop ≤ 1) ∧
      (splitByQuestions ['?'] 0 1).map Seg.text =
        (keptChunks ['?']).map stripL ∧
      (splitByQuestions ['?'] 0 1).map (fun g => g.stop - g.start) =
        (keptChunks ['?']).map
          (fun c => ((1:ℚ) - 0) * (c.length : ℚ) /
            (((['?'] : List Char).length : ℕ) : ℚ))) :=
  ⟨by decide, by norm_num,
    C5_split_questions_amended ['?'] 0 1 (by decide) (by norm_num)⟩

/-! ## `AdaptiveSegmenter` segmentation strategies (claim C3)

`advanced_processor.py`, lines 244–353.  The lecture strategy accumulates
fragments, recounting sentences of each incoming (stripped) fragment as
`max(1, len(re.findall('[.!?。！？]', text)))`, merging while the running
count stays within `sentences_per_segment + 1`.  The dialogue strategy leaves
every fragment alone unless it contains `'?'` **and** exceeds the strategy's
`max_chars`, in which case it is split by `_split_by_questions`.  The
technical strategy passes a fragment to `_split_preserving_terms` exactly
when its stripped text exceeds `max_chars` and appends it unchanged
otherwise.  The default strategy (used for the narrative and mixed content
types) skips fragments with empty stripped text and merges consecutive
fragments while the combined character count stays strictly below
`max_chars` **and** the accumulated span plus the incoming fragment's own
raw duration stays strictly below `max_duration`.  The default configuration
uses `sentences_per_segment = 2` (lecture), `max_chars = 80` (dialogue) and,
for the mixed type, `max_chars = 100`, `max_duration = 7.0`, with bounds
`min_chars = 20`, `min_duration = 1.5`. -/

def sentencePunct : List Char := ['.', '!', '?', '。', '！', '？']

/-- Model of `max(1, len(re.findall(r'[.!?。！？]', text)))`. -/
def sentenceCount (t : List Char) : ℕ :=
  max 1 (t.countP (fun c => sentencePunct.contains c))

/-- The accumulator loop of `_segment_lecture`: `cur` is the open segment,
`cnt` its accumulated sentence count. -/
def lectureLoop (sps : ℕ) : Seg → ℕ → List Seg → List Seg
  | cur, _, [] => [cur]
  | cur, cnt, s :: rest =>
    if cnt + sentenceCount (stripL s.text) ≤ sps + 1 then
      lectureLoop sps ⟨cur.start, s.stop, cur.text ++ ' ' :: stripL s.text⟩
        (cnt + sentenceCount (stripL s.text)) rest
    else
      cur :: lectureLoop sps ⟨s.start, s.stop, stripL s.text⟩
        (sentenceCount (stripL s.text)) rest

/-- Model of `AdaptiveSegmenter._segment_lecture`. -/
def segmentLecture (sps : ℕ) : List Seg → List Seg
  | [] => []
  | s :: rest =>
    lectureLoop sps ⟨s.start, s.stop, stripL s.text⟩
      (sentenceCount (stripL s.text)) rest

/-- Model of `AdaptiveSegmenter._segment_dialogue`. -/
def segmentDialogue (maxChars : ℕ) : List Seg → List Seg
  | [] => []
  | s :: rest =>
    (if '?' ∈ stripL s.text ∧ maxChars < (stripL s.text).length then
      splitByQuestions (stripL s.text) s.start s.stop
    else [s]) ++ segmentDialogue maxChars rest

/-- The accumulator loop of `_segment_default`: `cur` is the open segment
(its text already stripped/joined).  An incoming fragment with empty stripped
text is skipped; otherwise it is merged while the combined character count
stays strictly below `max_chars` **and** the accumulated span plus the
fragment's own raw duration stays strictly below `max_duration`. -/
def defaultLoop (maxChars : ℕ) (maxDur : ℚ) : Seg → List Seg → List Seg
  | cur, [] => [cur]
  | cur, s :: rest =>
    if stripL s.text = [] then defaultLoop maxChars maxDur cur rest
    else if cur.text.length + (stripL s.text).length < maxChars ∧
        cur.stop - cur.start + (s.stop - s.start) < maxDur then
      defaultLoop maxChars maxDur
        ⟨cur.start, s.stop, cur.text ++ ' ' :: stripL s.text⟩ rest
    else
      cur :: defaultLoop maxChars maxDur ⟨s.start, s.stop, stripL s.text⟩ rest

/-- Model of `AdaptiveSegmenter._segment_default` (used for the narrative and
mixed content types). -/
def segmentDefault (maxChars : ℕ) (maxDur : ℚ) : List Seg → List Seg
  | [] => []
  | s :: rest =>
    if stripL s.text = [] then segmentDefault maxChars maxDur rest
    else defaultLoop maxChars maxDur ⟨s.start, s.stop, stripL s.text⟩ rest

/-- Model of `AdaptiveSegmenter._segment_technical`, with
`_split_preserving_terms` — whose split points depend on the technical-term
regular expression — abstracted as the function argument `split`.  A segment
is passed to `split` exactly when its stripped text exceeds `max_chars`, and
is appended unchanged otherwise. -/
def segmentTechnical (split : Seg → List Seg) (maxChars : ℕ) : List Seg → List Seg
  | [] => []
  | s :: rest =>
    (if maxChars < (stripL s.text).length then split s else [s]) ++
      segmentTechnical split maxChars rest

/-- C3, counterexample: idempotence fails for two of the strategies even
though every output span is within the strategy's bounds.
**Lecture**: four 30-character fragments without terminal punctuation (each
recounts as one sentence).  The pass merges the first three (`1+1+1 ≤ 3`) and
flushes; every output is within the lecture bounds (30–150 chars, 2–10 s),
yet re-running the pass merges the two outputs (each recounts as **one**
sentence, `1+1 ≤ 3`).
**Default** (mixed bounds, 20–100 chars, 1.5–7 s): a flush forced by an
incoming fragment of large raw duration can re-merge on the second pass when
that fragment's block ends early.  With fragments spanning `[0,5]`,
`[10,100]` and `[100,11.8]`, the first pass flushes `[0,5]` (accumulated span
`5` plus incoming raw duration `90` is not `< 7`) and merges the last two
into a block spanning `[10,11.8]`; both outputs are within the mixed bounds,
yet on the second pass they merge (`30 + 61 < 100` and `5 + 1.8 < 7`). -/
theorem C3_idempotence_counterexample :
    ((∀ s ∈ segmentLecture 2
        [⟨0, 2, List.replicate 30 'a'⟩, ⟨2, 4, List.replicate 30 'a'⟩,
          ⟨4, 6, List.replicate 30 'a'⟩, ⟨6, 8, List.replicate 30 'a'⟩],
      30 ≤ s.text.length ∧ s.text.length ≤ 150 ∧
        (2:ℚ) ≤ s.stop - s.start ∧ s.stop - s.start ≤ 10) ∧
    segmentLecture 2 (segmentLecture 2
        [⟨0, 2, List.replicate 30 'a'⟩, ⟨2, 4, List.replicate 30 'a'⟩,
          ⟨4, 6, List.replicate 30 'a'⟩, ⟨6, 8, List.replicate 30 'a'⟩]) ≠
      segmentLecture 2
        [⟨0, 2, List.replicate 30 'a'⟩, ⟨2, 4, List.replicate 30 'a'⟩,
          ⟨4, 6, List.replicate 30 'a'⟩, ⟨6, 8, List.replicate 30 'a'⟩]) ∧
    ((∀ s ∈ segmentDefault 100 7
        [⟨0, 5, List.replicate 30 'a'⟩, ⟨10, 100, List.replicate 30 'a'⟩,
          ⟨100, 59/5, List.replicate 30 'a'⟩],
      20 ≤ s.text.length ∧ s.text.length ≤ 100 ∧
        (3:ℚ)/2 ≤ s.stop - s.start ∧ s.stop - s.start ≤ 7) ∧
    segmentDefault 100 7 (segmentDefault 100 7
        [⟨0, 5, List.replicate 30 'a'⟩, ⟨10, 100, List.replicate 30 'a'⟩,
          ⟨100, 59/5, List.replicate 30 'a'⟩]) ≠
      segmentDefault 100 7
        [⟨0, 5, List.replicate 30 'a'⟩, ⟨10, 100, List.replicate 30 'a'⟩,
          ⟨100, 59/5, List.replicate 30 'a'⟩]) := by
  have hstrip : stripL (List.replicate 30 'a') = List.replicate 30 'a' := by decide
  have hsc : sentenceCount (List.replicate 30 'a') = 1 := by decide
  have hmerged : stripL (List.replicate 30 'a' ++ (' ' :: (List.replicate 30 'a'
      ++ (' ' :: List.replicate 30 'a')))) = List.replicate 30 'a' ++
      (' ' :: (List.replicate 30 'a' ++ (' ' :: List.replicate 30 'a'))) := by decide
  have hscm : sentenceCount (List.replicate 30 'a' ++ (' ' :: (List.replicate 30 'a'
      ++ (' ' :: List.replicate 30 'a')))) = 1 := by decide
  have hrun : segmentLecture 2
      [⟨0, 2, List.replicate 30 'a'⟩, ⟨2, 4, List.replicate 30 'a'⟩,
        ⟨4, 6, List.replicate 30 'a'⟩, ⟨6, 8, List.replicate 30 'a'⟩] =
      [⟨0, 6, List.replicate 30 'a' ++ (' ' :: (List.replicate 30 'a'
        ++ (' ' :: List.replicate 30 'a')))⟩, ⟨6, 8, List.replicate 30 'a'⟩] := by
    simp only [segmentLecture, lectureLoop, hstrip, hsc, List.append_assoc,
      List.cons_append, List.nil_append]
    norm_num
  have hrun2 : segmentLecture 2
      [⟨0, 6, List.replicate 30 'a' ++ (' ' :: (List.replicate 30 'a'
        ++ (' ' :: List.replicate 30 'a')))⟩, ⟨6, 8, List.replicate 30 'a'⟩] =
      [⟨0, 8, List.replicate 30 'a' ++ (' ' :: (List.replicate 30 'a'
        ++ (' ' :: (List.replicate 30 'a' ++ (' ' :: List.replicate 30 'a')))))⟩] := by
    simp only [segmentLecture, lectureLoop, hstrip, hsc, hmerged, hscm,
      List.append_assoc, List.cons_append, List.nil_append]
    norm_num
  have hmerged2 : stripL (List.replicate 30 'a' ++ (' ' :: List.replicate 30 'a')) =
      List.replicate 30 'a' ++ (' ' :: List.replicate 30 'a') := by decide
  have hlen1 : (List.replicate 30 'a').length = 30 := by decide
  have hlen2 : (List.replicate 30 'a' ++ (' ' :: List.replicate 30 'a')).length = 61 := by
    decide
  have hrunD : segmentDefault 100 7
      [⟨0, 5, List.replicate 30 'a'⟩, ⟨10, 100, List.replicate 30 'a'⟩,
        ⟨100, 59/5, List.replicate 30 'a'⟩] =
      [⟨0, 5, List.replicate 30 'a'⟩,
        ⟨10, 59/5, List.replicate 30 'a' ++ (' ' :: List.replicate 30 'a')⟩] := by
    simp only [segmentDefault, defaultLoop, hstrip, hlen1, List.cons_append,
      List.nil_append]
    norm_num
  have hrunD2 : segmentDefault 100 7
      [⟨0, 5, List.replicate 30 'a'⟩,
        ⟨10, 59/5, List.replicate 30 'a' ++ (' ' :: List.replicate 30 'a')⟩] =
      [⟨0, 59/5, List.replicate 30 'a' ++ (' ' :: (List.replicate 30 'a'
        ++ (' ' :: List.replicate 30 'a')))⟩] := by
    simp only [segmentDefault, defaultLoop, hstrip, hmerged2, hlen1, hlen2,
      List.append_assoc, List.cons_append, List.nil_append]
    norm_num
  refine ⟨⟨?_, ?_⟩, ?_, ?_⟩
  · rw [hrun]
    intro s hs
    rcases List.mem_cons.mp hs with h | h
    · subst h
      refine ⟨by simp, by simp, by norm_num, by norm_num⟩
    · rw [List.mem_singleton] at h
      subst h
      refine ⟨by simp, by simp, by norm_num, by norm_num⟩
  · rw [hrun, hrun2]
    simp
  · rw [hrunD]
    intro s hs
    rcases List.mem_cons.mp hs with h | h
    · subst h
      refine ⟨by simp, by simp, by norm_num, by norm_num⟩
    · rw [List.mem_singleton] at h
      subst h
      refine ⟨by simp [hlen2], by simp [hlen2], by norm_num, by norm_num⟩
  · rw [hrunD, hrunD2]
    simp

/-- Helper for the amended C3: the lecture accumulator flushes at every step
when each incoming fragment would overflow the running count. -/
lemma lectureLoop_id (sps : ℕ) (rest : List Seg) : ∀ (cur : Seg) (cnt : ℕ),
    (∀ s ∈ rest, stripL s.text = s.text) →
    (∀ h : rest ≠ [], sps + 1 < cnt + sentenceCount ((rest.head h).text)) →
    List.Chain' (fun a b => sps + 1 < sentenceCount a.text + sentenceCount b.text) rest →
    lectureLoop sps cur cnt rest = cur :: rest := by
  induction rest with
  | nil => intro cur cnt _ _ _; simp [lectureLoop]
  | cons s rest ih =>
    intro cur cnt hstrip hhead hchain
    have hs : stripL s.text = s.text := hstrip s (List.mem_cons_self s rest)
    have hover : sps + 1 < cnt + sentenceCount (stripL s.text) := by
      rw [hs]
      exact hhead (by simp) 
    unfold lectureLoop
    rw [if_neg (by omega)]
    congr 1
    have heta : (⟨s.start, s.stop, stripL s.text⟩ : Seg) = s := by
      rw [hs]
    rw [heta]
    apply ih s (sentenceCount (stripL s.text))
      (fun x hx => hstrip x (List.mem_cons_of_mem s hx))
    · intro h
      have := (List.chain'_cons'.mp hchain).1 (rest.head h) (List.head?_eq_head h)
      rw [hs]
      omega
    · exact (List.chain'_cons'.mp hchain).2

/-! ## `FeedbackLoop.analyze_errors` / `suggest_adjustments` (claim C9)

`advanced_processor.py`, lines 723–823.  A quality report is the part of the
evaluation dictionary the feedback loop reads (`fragmentation_score`,
`timestamp_error`, `coherence_score` and the optional `bleu_score`); the
error thresholds are the fixed `self.thresholds` (fragmentation 0.3,
timestamp 0.1, coherence 0.5, bleu 0.3).  The adjustable parameters keep
their current value, bounds and step; adjustments are listed in the order the
Python code inserts them into its dictionary. -/

structure QReport where
  fragmentation : ℚ
  tsError : ℚ
  coherence : ℚ
  bleu : Option ℚ
  deriving DecidableEq, Repr

structure FLErrors where
  fragmentation : ℚ
  timestamp : ℚ
  coherence : ℚ
  translation : Option ℚ
  deriving DecidableEq, Repr

/-- Model of `FeedbackLoop.analyze_errors`. -/
def analyzeErrors (r : QReport) : FLErrors :=
  ⟨if 3/10 < r.fragmentation then r.fragmentation else 0,
    if 1/10 < r.tsError then r.tsError / (1/10) else 0,
    if r.coherence < 1/2 then 1 - r.coherence else 0,
    r.bleu.map (fun b => if b < 3/10 then 1 - b else 0)⟩

structure ParamState where
  cur : ℚ
  lo : ℚ
  hi : ℚ
  step : ℚ
  deriving DecidableEq, Repr

structure FLParams where
  mergeThreshold : ParamState
  maxSegmentChars : ParamState
  translationBatchSize : ParamState
  vadThreshold : ParamState
  deriving DecidableEq, Repr

/-- Model of `self.adjustable_params` at construction time. -/
def defaultParams : FLParams :=
  ⟨⟨1, 3/10, 2, 1/10⟩, ⟨120, 50, 200, 10⟩, ⟨10, 5, 20, 5⟩, ⟨1/2, 3/10, 7/10, 5/100⟩⟩

structure Adjustment where
  param : String
  current : ℚ
  suggested : ℚ
  deriving DecidableEq, Repr

/-- Model of `FeedbackLoop.suggest_adjustments` (`errors.get("translation", 0)` reads 0
when the translation axis was never produced). -/
def suggestAdjustments (p : FLParams) (e : FLErrors) : List Adjustment :=
  (if 0 < e.fragmentation then
    [⟨"merge_threshold", p.mergeThreshold.cur,
      min (p.mergeThreshold.cur + p.mergeThreshold.step) p.mergeThreshold.hi⟩]
  else []) ++
  (if 0 < e.timestamp then
    [⟨"vad_threshold", p.vadThreshold.cur,
      max (p.vadThreshold.cur - p.vadThreshold.step) p.vadThreshold.lo⟩]
  else []) ++
  (if 0 < e.coherence then
    [⟨"translation_batch_size", p.translationBatchSize.cur,
      min (p.translationBatchSize.cur + p.translationBatchSize.step)
        p.translationBatchSize.hi⟩]
  else []) ++
  (if 0 < (e.translation.getD 0) then
    [⟨"max_segment_chars", p.maxSegmentChars.cur,
      max (p.maxSegmentChars.cur - p.maxSegmentChars.step) p.maxSegmentChars.lo⟩]
  else [])

/-- C9: a report with `fragmentation_score = 0.5`, a timestamp error within
the 0.1 s threshold, a coherence score of at least 0.5 and no BLEU score
produces exactly one suggested adjustment, raising `merge_threshold` by one
step clamped to its configured maximum. -/
theorem C9_feedback_single_adjustment (p : FLParams) (r : QReport)
    (hfrag : r.fragmentation = 1/2) (hts : r.tsError ≤ 1/10)
    (hcoh : 1/2 ≤ r.coherence) (hbleu : r.bleu = none) :
    suggestAdjustments p (analyzeErrors r) =
      [⟨"merge_threshold", p.mergeThreshold.cur,
        min (p.mergeThreshold.cur + p.mergeThreshold.step) p.mergeThreshold.hi⟩] := by
  unfold analyzeErrors suggestAdjustments
  rw [hbleu, hfrag]
  rw [if_pos (by norm_num : (3:ℚ)/10 < 1/2)]
  rw [if_neg (not_lt.mpr hts), if_neg (not_lt.mpr hcoh)]
  simp

/-- C9, witness: the concrete report `{0.5, 0.05, 0.8, none}` against the
default parameters suggests exactly `merge_threshold : 1.0 → 1.1`. -/
theorem C9_feedback_single_adjustment_witness :
    suggestAdjustments defaultParams (analyzeErrors ⟨1/2, 1/20, 4/5, none⟩) =
      [⟨"merge_threshold", (defaultParams.mergeThreshold).cur,
        min ((defaultParams.mergeThreshold).cur + (defaultParams.mergeThreshold).step)
          (defaultParams.mergeThreshold).hi⟩] :=
  C9_feedback_single_adjustment defaultParams ⟨1/2, 1/20, 4/5, none⟩
    rfl (by norm_num) (by norm_num) rfl

/-! ## `post_vad_processing` and `should_merge_sentences` (claim C10)

`asr_post_processor.py`, lines 1070–1168.  `should_merge_sentences` works on
the stripped texts; its `last_word` computation takes the last
whitespace-separated token of `text1.rstrip('.,;:!?')`, lower-cased (guarded
by `text1.split()` being non-empty; `lastWordLower` returns `[]` when no
token remains, where CPython would raise an `IndexError` on `[-1]` — the
inputs used here have a last token).  `post_vad_processing` accumulates a
`current` segment, merging the next segment into it when the gap is below
`max_gap`, the new span is within `max_segment_duration` and
`should_merge_sentences` agrees; a flushed `current` is kept only when its
duration reaches `min_duration`. -/

def continuationWords : List (List Char) :=
  [['a','n','d'], ['o','r'], ['b','u','t'], ['s','o'], ['b','e','c','a','u','s','e'],
    ['t','h','o','u','g','h'], ['w','h','i','c','h'], ['t','h','a','t'],
    ['w','h','o'], ['w','h','e','r','e'], ['w','h','e','n'], ['i','f']]

def incompleteEndings : List (List Char) :=
  [['t','o'], ['o','f'], ['f','o','r'], ['w','i','t','h'], ['i','n'], ['o','n'],
    ['a','t'], ['b','y'], ['a'], ['a','n'], ['t','h','e'], ['i','s'],
    ['a','r','e'], ['w','a','s'], ['w','e','r','e']]

/-- Model of `text1.rstrip('.,;:!?').split()[-1].lower() if text1.split() else ''`. -/
def lastWordLower (t : List Char) : List Char :=
  if wordsOf t = [] then []
  else lowerL ((wordsOf (rstripSet ['.', ',', ';', ':', '!', '?'] t)).getLast?.getD [])

/-- Terminal-punctuation test `text.endswith(('.', '!', '?', '。', '！', '？'))`. -/
def endsTerminal (cs : List Char) : Bool :=
  match cs.getLast? with
  | some c => sentencePunct.contains c
  | none => false

/-- Model of `should_merge_sentences`. -/
def shouldMergeSentences (t1 t2 : List Char) : Bool :=
  let s1 := stripL t1
  let s2 := stripL t2
  if s1 = [] ∨ s2 = [] then false
  else if (match s2.head? with | some c => c.isLower | none => false) then true
  else if ¬ endsTerminal s1 then true
  else if lastWordLower s1 ∈ continuationWords then true
  else if lastWordLower s1 ∈ incompleteEndings then true
  else false

/-- The accumulation loop of `post_vad_processing`; `cur` is the open
segment. -/
def postVadLoop (minDur maxGap maxSegDur : ℚ) : Seg → List Seg → List Seg
  | cur, [] => if minDur ≤ cur.stop - cur.start then [cur] else []
  | cur, s :: rest =>
    if s.start - cur.stop < maxGap ∧ s.stop - cur.start ≤ maxSegDur ∧
        shouldMergeSentences cur.text s.text = true then
      postVadLoop minDur maxGap maxSegDur
        ⟨cur.start, s.stop, rstripSet ['.', ',', '!', '?'] cur.text ++ ' ' :: s.text⟩ rest
    else
      (if minDur ≤ cur.stop - cur.start then [cur] else []) ++
        postVadLoop minDur maxGap maxSegDur s rest

/-- Model of `post_vad_processing` (defaults: `min_duration = 0.5`, `max_gap = 1.0`,
`max_segment_duration = 10.0`). -/
def postVadProcessing (segs : List Seg) (minDur maxGap maxSegDur : ℚ) : List Seg :=
  match segs with
  | [] => []
  | s :: rest => postVadLoop minDur maxGap maxSegDur s rest

/-- C10: `post_vad_processing` can drop a segment with non-empty text
entirely: `{0, 0.2, "Hello."}` (0.2 s < `min_duration` 0.5 s) is followed by
a segment 4.8 s away (gap ≥ `max_gap`), so it is flushed unmerged and
discarded, and no text of it survives into the output. -/
theorem C10_post_vad_drops_segment :
    postVadProcessing [⟨0, 1/5, "Hello.".toList⟩, ⟨5, 6, "World.".toList⟩]
        (1/2) 1 10 =
      [⟨5, 6, "World.".toList⟩] ∧
    "Hello.".toList ≠ [] ∧
    ¬ (containsSub "Hello.".toList
        (List.foldr (fun s acc => s.text ++ acc)
          [] (postVadProcessing [⟨0, 1/5, "Hello.".toList⟩, ⟨5, 6, "World.".toList⟩]
            (1/2) 1 10)) = true) := by
  have hmain : postVadProcessing [⟨0, 1/5, "Hello.".toList⟩, ⟨5, 6, "World.".toList⟩]
      (1/2) 1 10 = [⟨5, 6, "World.".toList⟩] := by
    show postVadLoop (1/2) 1 10 ⟨0, 1/5, "Hello.".toList⟩
      [⟨5, 6, "World.".toList⟩] = [⟨5, 6, "World.".toList⟩]
    rw [show ∀ cur s rest, postVadLoop (1/2) 1 10 cur (s :: rest) =
        (if s.start - cur.stop < 1 ∧ s.stop - cur.start ≤ 10 ∧
            shouldMergeSentences cur.text s.text = true then
          postVadLoop (1/2) 1 10
            ⟨cur.start, s.stop, rstripSet ['.', ',', '!', '?'] cur.text ++ ' ' :: s.text⟩ rest
        else
          (if (1:ℚ)/2 ≤ cur.stop - cur.start then [cur] else []) ++
            postVadLoop (1/2) 1 10 s rest)
      from fun cur s rest => rfl]
    rw [if_neg (by rintro ⟨hgap, -⟩; norm_num at hgap)]
    rw [if_neg (by norm_num)]
    rw [show ∀ cur, postVadLoop (1/2) 1 10 cur [] =
        (if (1:ℚ)/2 ≤ cur.stop - cur.start then [cur] else []) from fun cur => rfl]
    rw [if_pos (by norm_num)]
    simp
  refine ⟨hmain, by decide, ?_⟩
  rw [hmain]
  decide

/-! ## `ASRPostProcessor.optimize` (claim C8)

`asr_post_processor.py`, lines 218–255 (pipeline), 476–500
(`_ensure_sentence_completeness`) and 502–534 (`_final_cleanup`).  The claim
is about the terminal punctuation of the emitted texts, which is established
by step 4 (`_ensure_sentence_completeness`) and preserved by step 5
(`_final_cleanup`), *whatever* the earlier steps produced; steps 1–3
(`_fix_punctuation`, `_smart_merge`, `_fix_common_errors` — the last of which
may consult an external dictionary file) are therefore abstracted into an
arbitrary preprocessing function `pre`.

The `_final_cleanup` regexes are modelled character by character:
`' '.join(text.split())` on an already-stripped text collapses whitespace
runs to single spaces (`collapseWsRuns`); `\s+([.,!?;:]) → \1` deletes
whitespace that is followed, through whitespace, by one of the six
punctuation marks; `([.,!?;:])(?=[A-Za-z]) → \1 ` inserts a space; and
`([.,!?])\1+ → \1` collapses runs of one repeated mark (keeping one copy of
the same character).  `str.replace('``', '"')` and `str.replace("''", '"')`
are left-to-right non-overlapping two-character replacements. -/

def questionWords : List (List Char) :=
  [['w','h','o'], ['w','h','a','t'], ['w','h','e','r','e'], ['w','h','e','n'],
    ['w','h','y'], ['h','o','w'], ['w','h','i','c','h'], ['w','h','o','s','e']]

/-- The interrogative-word heuristic of `_ensure_sentence_completeness`:
`text_lower.startswith(qw) or f' {qw} ' in text_lower`. -/
def isQuestionText (t : List Char) : Bool :=
  questionWords.any fun qw =>
    startsWithL qw (lowerL t) || containsSub (' ' :: (qw ++ [' '])) (lowerL t)

/-- Model of `ASRPostProcessor._ensure_sentence_completeness`. -/
def ensureSentenceCompleteness (segs : List Seg) : List Seg :=
  segs.map fun s =>
    if stripL s.text = [] then s
    else if endsTerminal (stripL s.text) = true then { s with text := stripL s.text }
    else if isQuestionText (stripL s.text) = true then
      { s with text := rstripSet ['.', ',', ';', ':'] (stripL s.text) ++ ['?'] }
    else
      { s with text := rstripSet ['.', ',', ';', ':'] (stripL s.text) ++ ['.'] }

def punct6 : List Char := ['.', ',', '!', '?', ';', ':']

def repPunct : List Char := ['.', ',', '!', '?']

def backquote : Char := Char.ofNat 96

def apostrophe : Char := Char.ofNat 39

def dquote : Char := Char.ofNat 34

/-- Model of `' '.join(text.split())` on an already-stripped text: collapse each
whitespace run to a single `' '`. -/
def collapseWsRuns : List Char → List Char
  | [] => []
  | c :: cs =>
    if isWsC c then
      if (collapseWsRuns cs).head? = some ' ' then collapseWsRuns cs
      else ' ' :: collapseWsRuns cs
    else c :: collapseWsRuns cs

/-- Model of `re.sub(r'\s+([.,!?;:])', r'\1', text)`: a whitespace character is
deleted exactly when what remains to its right (after the same deletions)
starts with one of the six punctuation marks. -/
def rmSpaceBeforePunct : List Char → List Char
  | [] => []
  | c :: cs =>
    if isWsC c && (match (rmSpaceBeforePunct cs).head? with
        | some d => punct6.contains d
        | none => false) then
      rmSpaceBeforePunct cs
    else c :: rmSpaceBeforePunct cs

/-- Model of `re.sub(r'([.,!?;:])(?=[A-Za-z])', r'\1 ', text)`. -/
def addSpaceAfterPunct : List Char → List Char
  | [] => []
  | c :: cs =>
    if punct6.contains c && (match cs.head? with
        | some d => d.isAlpha
        | none => false) then
      c :: ' ' :: addSpaceAfterPunct cs
    else c :: addSpaceAfterPunct cs

/-- Model of `re.sub(r'([.,!?])\1+', r'\1', text)`: a run of one repeated mark keeps a
single copy of that character. -/
def collapseRepeatPunct : List Char → List Char
  | [] => []
  | c :: cs =>
    if repPunct.contains c && ((collapseRepeatPunct cs).head? == some c) then
      collapseRepeatPunct cs
    else c :: collapseRepeatPunct cs

/-- Model of `str.replace(a ++ b, r)` for a two-character pattern (left-to-right,
non-overlapping). -/
def replaceTwo (a b r : Char) : List Char → List Char
  | [] => []
  | [c] => [c]
  | c :: d :: cs =>
    if c = a ∧ d = b then r :: replaceTwo a b r cs
    else c :: replaceTwo a b r (d :: cs)

/-- Model of `text[0].upper() + text[1:] if text[0].isalpha()`. -/
def capitalizeFirst : List Char → List Char
  | [] => []
  | c :: cs => if c.isAlpha then c.toUpper :: cs else c :: cs

/-- Model of `ASRPostProcessor._final_cleanup`. -/
def finalCleanup (segs : List Seg) : List Seg :=
  segs.filterMap fun s =>
    if stripL s.text = [] then none
    else
      let t := capitalizeFirst (replaceTwo apostrophe apostrophe dquote
        (replaceTwo backquote backquote dquote
          (collapseRepeatPunct (addSpaceAfterPunct (rmSpaceBeforePunct
            (collapseWsRuns (stripL s.text)))))))
      some { s with text := t }

/-- Model of `ASRPostProcessor.optimize`, with steps 1–3 abstracted as `pre`: whatever
they do, the emitted segments pass through
`_ensure_sentence_completeness` and `_final_cleanup` last. -/
def optimize (pre : List Seg → List Seg) (segs : List Seg) : List Seg :=
  finalCleanup (ensureSentenceCompleteness (pre segs))

lemma getLast?_ne_nil {l : List Char} {c : Char} (h : l.getLast? = some c) :
    l ≠ [] := by
  intro hn
  rw [hn] at h
  simp at h

lemma getLast?_cons_of_ne_nil (a : Char) {l : List Char} (h : l ≠ []) :
    (a :: l).getLast? = l.getLast? := by
  cases l with
  | nil => exact absurd rfl h
  | cons b t => exact List.getLast?_cons_cons

lemma getLast?_dropWhile_of_neg {p : Char → Bool} {cs : List Char} {c : Char}
    (h : cs.getLast? = some c) (hc : p c = false) :
    (cs.dropWhile p).getLast? = some c := by
  induction cs with
  | nil => simp at h
  | cons a rest ih =>
    cases rest with
    | nil =>
      simp at h
      subst h
      rw [List.dropWhile_cons, hc]
      simp
    | cons b rest' =>
      have h' : (b :: rest').getLast? = some c := by
        rw [← List.getLast?_cons_cons (a := a)]
        exact h
      rw [List.dropWhile_cons]
      split
      · exact ih h'
      · exact h

lemma rdropWhile_eq_self_of_last {p : Char → Bool} {cs : List Char} {c : Char}
    (h : cs.getLast? = some c) (hc : p c = false) :
    cs.rdropWhile p = cs := by
  rw [List.rdropWhile_eq_self_iff]
  intro hl
  have h2 := List.getLast?_eq_getLast_of_ne_nil hl
  rw [h2] at h
  have h3 : cs.getLast hl = c := by injection h
  rw [h3, hc]
  simp

lemma getLast?_stripL {cs : List Char} {c : Char} (h : cs.getLast? = some c)
    (hc : isWsC c = false) : (stripL cs).getLast? = some c := by
  unfold stripL
  have h1 := getLast?_dropWhile_of_neg h hc
  rw [rdropWhile_eq_self_of_last h1 hc]
  exact h1

lemma getLast?_collapseWsRuns {cs : List Char} {c : Char} (h : cs.getLast? = some c)
    (hc : isWsC c = false) : (collapseWsRuns cs).getLast? = some c := by
  induction cs with
  | nil => simp at h
  | cons a rest ih =>
    cases rest with
    | nil =>
      simp at h
      subst h
      unfold collapseWsRuns
      rw [hc]
      simp [collapseWsRuns]
    | cons b rest' =>
      have h' : (b :: rest').getLast? = some c := by
        rw [← List.getLast?_cons_cons (a := a)]
        exact h
      have ihr := ih h'
      have hne := getLast?_ne_nil ihr
      unfold collapseWsRuns
      split
      · split
        · exact ihr
        · rw [getLast?_cons_of_ne_nil ' ' hne]
          exact ihr
      · rw [getLast?_cons_of_ne_nil a hne]
        exact ihr

lemma getLast?_rmSpaceBeforePunct {cs : List Char} {c : Char}
    (h : cs.getLast? = some c) (hc : isWsC c = false) :
    (rmSpaceBeforePunct cs).getLast? = some c := by
  induction cs with
  | nil => simp at h
  | cons a rest ih =>
    cases rest with
    | nil =>
      simp at h
      subst h
      unfold rmSpaceBeforePunct
      rw [hc]
      simp [rmSpaceBeforePunct]
    | cons b rest' =>
      have h' : (b :: rest').getLast? = some c := by
        rw [← List.getLast?_cons_cons (a := a)]
        exact h
      have ihr := ih h'
      have hne := getLast?_ne_nil ihr
      unfold rmSpaceBeforePunct
      split
      · exact ihr
      · rw [getLast?_cons_of_ne_nil a hne]
        exact ihr

lemma getLast?_addSpaceAfterPunct {cs : List Char} {c : Char}
    (h : cs.getLast? = some c) :
    (addSpaceAfterPunct cs).getLast? = some c := by
  induction cs with
  | nil => simp at h
  | cons a rest ih =>
    cases rest with
    | nil =>
      simp at h
      subst h
      unfold addSpaceAfterPunct
      simp [addSpaceAfterPunct]
    | cons b rest' =>
      have h' : (b :: rest').getLast? = some c := by
        rw [← List.getLast?_cons_cons (a := a)]
        exact h
      have ihr := ih h'
      have hne := getLast?_ne_nil ihr
      unfold addSpaceAfterPunct
      split
      · rw [getLast?_cons_of_ne_nil a (by simp), getLast?_cons_of_ne_nil ' ' hne]
        exact ihr
      · rw [getLast?_cons_of_ne_nil a hne]
        exact ihr

lemma getLast?_collapseRepeatPunct {cs : List Char} {c : Char}
    (h : cs.getLast? = some c) :
    (collapseRepeatPunct cs).getLast? = some c := by
  induction cs with
  | nil => simp at h
  | cons a rest ih =>
    cases rest with
    | nil =>
      simp at h
      subst h
      unfold collapseRepeatPunct
      simp [collapseRepeatPunct]
    | cons b rest' =>
      have h' : (b :: rest').getLast? = some c := by
        rw [← List.getLast?_cons_cons (a := a)]
        exact h
      have ihr := ih h'
      have hne := getLast?_ne_nil ihr
      unfold collapseRepeatPunct
      split
      · exact ihr
      · rw [getLast?_cons_of_ne_nil a hne]
        exact ihr

lemma getLast?_replaceTwo (a b r : Char) :
    ∀ (n : ℕ) (cs : List Char) (c : Char), cs.length ≤ n →
      cs.getLast? = some c → c ≠ b →
      (replaceTwo a b r cs).getLast? = some c := by
  intro n
  induction n with
  | zero =>
    intro cs c hlen h _
    have := getLast?_ne_nil h
    cases cs with
    | nil => exact absurd rfl this
    | cons x t => simp at hlen
  | succ n ih =>
    intro cs c hlen h hcb
    match cs with
    | [] => simp at h
    | [x] =>
      simp at h
      subst h
      rfl
    | x :: y :: cs' =>
      have hlast : (y :: cs').getLast? = some c := by
        rw [← List.getLast?_cons_cons (a := x)]
        exact h
      unfold replaceTwo
      split
      · next hab =>
        cases cs' with
        | nil =>
          simp at hlast
          exact absurd (hlast ▸ hab.2) hcb
        | cons z cs'' =>
          have h2 : (z :: cs'').getLast? = some c := by
            rw [← List.getLast?_cons_cons (a := y)]
            exact hlast
          have ihz := ih (z :: cs'') c (by simp at hlen ⊢; omega) h2 hcb
          rw [getLast?_cons_of_ne_nil r (getLast?_ne_nil ihz)]
          exact ihz
      · have ihy := ih (y :: cs') c (by simp at hlen ⊢; omega) hlast hcb
        rw [getLast?_cons_of_ne_nil x (getLast?_ne_nil ihy)]
        exact ihy

lemma getLast?_capitalizeFirst {cs : List Char} {c : Char}
    (h : cs.getLast? = some c) (hc : c.isAlpha = false) :
    (capitalizeFirst cs).getLast? = some c := by
  cases cs with
  | nil => simp at h
  | cons a rest =>
    cases rest with
    | nil =>
      simp at h
      subst h
      rw [show capitalizeFirst [a] = if a.isAlpha then [a.toUpper] else [a] from rfl]
      rw [hc]
      simp
    | cons b rest' =>
      have h' : (b :: rest').getLast? = some c := by
        rw [← List.getLast?_cons_cons (a := a)]
        exact h
      rw [show capitalizeFirst (a :: b :: rest') =
        if a.isAlpha then a.toUpper :: b :: rest' else a :: b :: rest' from rfl]
      split
      · rw [getLast?_cons_of_ne_nil _ (by simp)]
        exact h'
      · rw [getLast?_cons_of_ne_nil _ (by simp)]
        exact h'

/-- After `_ensure_sentence_completeness`, every segment whose text is not
whitespace-only ends in terminal punctuation. -/
lemma ensure_last (segs : List Seg) :
    ∀ s ∈ ensureSentenceCompleteness segs,
      stripL s.text = [] ∨ ∃ c, s.text.getLast? = some c ∧ c ∈ sentencePunct := by
  intro s hs
  rw [ensureSentenceCompleteness, List.mem_map] at hs
  obtain ⟨x, _, rfl⟩ := hs
  split
  · next h1 => left; exact h1
  · split
    · next h2 =>
      right
      unfold endsTerminal at h2
      split at h2
      · next c heq =>
        exact ⟨c, heq, by simpa using h2⟩
      · simp at h2
    · split
      · right
        exact ⟨'?', List.getLast?_concat _, by simp [sentencePunct]⟩
      · right
        exact ⟨'.', List.getLast?_concat _, by simp [sentencePunct]⟩

/-- C8: every segment emitted by the `optimize` pipeline — whatever the
punctuation-fixing, merging and error-fixing steps 1–3 produced — has
non-empty text ending in one of the six terminal punctuation marks. -/
theorem C8_terminal_punctuation (pre : List Seg → List Seg) (segs : List Seg)
    (s : Seg) (hs : s ∈ optimize pre segs) :
    s.text ≠ [] ∧ ∃ c, s.text.getLast? = some c ∧ c ∈ sentencePunct := by
  have hside : ∀ d ∈ sentencePunct, isWsC d = false ∧ d ≠ backquote ∧
      d ≠ apostrophe ∧ d.isAlpha = false := by decide
  unfold optimize finalCleanup at hs
  rw [List.mem_filterMap] at hs
  obtain ⟨x, hx, hfx⟩ := hs
  rcases ensure_last (pre segs) x hx with hempty | ⟨c, hlast, hcp⟩
  · rw [if_pos hempty] at hfx
    simp at hfx
  · obtain ⟨hws, hbq, hap, hal⟩ := hside c hcp
    have hne : stripL x.text ≠ [] :=
      getLast?_ne_nil (getLast?_stripL hlast hws)
    rw [if_neg hne] at hfx
    have hdef : Seg.mk x.start x.stop
        (capitalizeFirst (replaceTwo apostrophe apostrophe dquote
          (replaceTwo backquote backquote dquote
            (collapseRepeatPunct (addSpaceAfterPunct (rmSpaceBeforePunct
              (collapseWsRuns (stripL x.text)))))))) = s := by
      simpa using hfx
    subst hdef
    have h0 := getLast?_stripL hlast hws
    have h1 := getLast?_collapseWsRuns h0 hws
    have h2 := getLast?_rmSpaceBeforePunct h1 hws
    have h3 := getLast?_addSpaceAfterPunct h2
    have h4 := getLast?_collapseRepeatPunct h3
    have h5 := getLast?_replaceTwo backquote backquote dquote _ _ c
      (le_refl _) h4 hbq
    have h6 := getLast?_replaceTwo apostrophe apostrophe dquote _ _ c
      (le_refl _) h5 hap
    have h7 := getLast?_capitalizeFirst h6 hal
    exact ⟨getLast?_ne_nil h7, c, h7, hcp⟩

/-- C8, witness: running the last two pipeline stages on `[{0, 1, "hi"}]`
emits `[{0, 1, "Hi."}]`, whose text ends in `'.'`. -/
theorem C8_terminal_punctuation_witness :
    ((['H', 'i', '.'] : List Char) ≠ [] ∧
      ∃ c, (['H', 'i', '.'] : List Char).getLast? = some c ∧ c ∈ sentencePunct) := by
  have h1 : ensureSentenceCompleteness [⟨0, 1, ['h', 'i']⟩] =
      [⟨0, 1, ['h', 'i', '.']⟩] := by
    have hstrip : stripL ['h', 'i'] = ['h', 'i'] := by decide
    have hterm : endsTerminal ['h', 'i'] = false := by decide
    have hq : isQuestionText ['h', 'i'] = false := by decide
    have hr : rstripSet ['.', ',', ';', ':'] ['h', 'i'] ++ ['.'] =
        ['h', 'i', '.'] := by decide
    simp only [ensureSentenceCompleteness, List.map_cons, List.map_nil,
      hstrip, hterm, hq, hr]
    simp
  have h2 : finalCleanup [⟨0, 1, ['h', 'i', '.']⟩] = [⟨0, 1, ['H', 'i', '.']⟩] := by
    have hstrip : stripL ['h', 'i', '.'] = ['h', 'i', '.'] := by decide
    have hclean : capitalizeFirst (replaceTwo apostrophe apostrophe dquote
        (replaceTwo backquote backquote dquote
          (collapseRepeatPunct (addSpaceAfterPunct (rmSpaceBeforePunct
            (collapseWsRuns ['h', 'i', '.'])))))) = ['H', 'i', '.'] := by decide
    simp only [finalCleanup, List.filterMap_cons, List.filterMap_nil, hstrip, hclean]
    simp
  have heval : optimize id [⟨0, 1, ['h', 'i']⟩] = [⟨0, 1, ['H', 'i', '.']⟩] := by
    unfold optimize
    rw [show id [(⟨0, 1, ['h', 'i']⟩ : Seg)] = [⟨0, 1, ['h', 'i']⟩] from rfl, h1, h2]
  exact C8_terminal_punctuation id [⟨0, 1, ['h', 'i']⟩] ⟨0, 1, ['H', 'i', '.']⟩
    (by rw [heval]; exact List.mem_singleton_self _)

/-! ## Idempotent strategies of `AdaptiveSegmenter` (claim C3, amended)

`advanced_processor.py`, lines 244–261, 298–323 and 263–296.  The dialogue
strategy is idempotent outright: a sub-segment emitted by
`_split_by_questions` carries a stripped chunk containing at most one `'?'`,
and that one as its last character; re-splitting such a text yields a single
chunk covering the whole text, reproducing the segment exactly.  The
technical strategy leaves unchanged any list whose stripped texts are within
`max_chars` (the term-preserving split is then never invoked), and the
lecture strategy any strip-invariant list whose adjacent recounted sentence
counts overflow `sentences_per_segment + 1`. -/

/-- The head of `dropWhile p` never satisfies `p`. -/
lemma head?_dropWhile_not {p : Char → Bool} {cs : List Char} {x : Char}
    (h : (cs.dropWhile p).head? = some x) : p x = false := by
  induction cs with
  | nil => simp at h
  | cons a rest ih =>
    rw [List.dropWhile_cons] at h
    split at h
    · exact ih h
    · next hpa =>
      rw [List.head?_cons, Option.some.injEq] at h
      subst h
      simpa using hpa

/-- `strip()` is idempotent. -/
lemma stripL_idem (cs : List Char) : stripL (stripL cs) = stripL cs := by
  have hdrop : (stripL cs).dropWhile isWsC = stripL cs := by
    cases hrr : stripL cs with
    | nil => simp
    | cons a r' =>
      have hpre : stripL cs <+: cs.dropWhile isWsC :=
        List.rdropWhile_prefix isWsC (cs.dropWhile isWsC)
      rw [hrr] at hpre
      obtain ⟨t, ht⟩ := hpre
      have hha : (cs.dropWhile isWsC).head? = some a := by
        rw [← ht]
        rfl
      have ha : isWsC a = false := head?_dropWhile_not hha
      rw [List.dropWhile_cons, ha]
      simp
  have h1 : stripL (stripL cs) = ((stripL cs).dropWhile isWsC).rdropWhile isWsC := rfl
  rw [h1, hdrop]
  show ((cs.dropWhile isWsC).rdropWhile isWsC).rdropWhile isWsC = stripL cs
  rw [List.rdropWhile_idempotent]
  rfl

/-- `strip()` only removes characters. -/
lemma stripL_sublist (cs : List Char) : List.Sublist (stripL cs) cs := by
  have h1 : stripL cs <+: cs.dropWhile isWsC :=
    List.rdropWhile_prefix isWsC (cs.dropWhile isWsC)
  have h2 : cs.dropWhile isWsC <:+ cs := List.dropWhile_suffix _
  exact h1.sublist.trans h2.sublist

/-- Every question chunk contains at most one `'?'`, and when it contains one
it is the chunk's last character. -/
lemma chunkAfterQ_structure (cs : List Char) :
    ∀ c ∈ chunkAfterQ cs, c.count '?' ≤ 1 ∧ ('?' ∈ c → c.getLast? = some '?') := by
  induction cs with
  | nil =>
    intro c hc
    simp [chunkAfterQ] at hc
    subst hc
    simp
  | cons a rest ih =>
    intro c hc
    unfold chunkAfterQ at hc
    split at hc
    · next ha =>
      rcases List.mem_cons.mp hc with h1 | h1
      · subst h1
        subst ha
        exact ⟨by decide, fun _ => rfl⟩
      · exact ih c h1
    · next ha =>
      cases hcq : chunkAfterQ rest with
      | nil => exact absurd hcq (chunkAfterQ_ne_nil rest)
      | cons g gs =>
        rw [hcq] at hc
        rcases List.mem_cons.mp hc with h1 | h1
        · have hg := ih g (by rw [hcq]; exact List.mem_cons_self g gs)
          subst h1
          constructor
          · rw [List.count_cons]
            have hbe : (a == '?') = false := by
              simpa using ha
            rw [hbe]
            simpa using hg.1
          · intro hq
            have hq' : '?' ∈ g := by
              rcases List.mem_cons.mp hq with h2 | h2
              · exact absurd h2.symm ha
              · exact h2
            have hlast := hg.2 hq'
            have hgne : g ≠ [] := getLast?_ne_nil hlast
            rw [getLast?_cons_of_ne_nil a hgne]
            exact hlast
        · exact ih c (by rw [hcq]; exact List.mem_cons_of_mem g h1)

/-- Chunking a question-free text followed by a single `'?'` yields that text
as the single non-trailing chunk. -/
lemma chunkAfterQ_append_q (init : List Char) (h : '?' ∉ init) :
    chunkAfterQ (init ++ ['?']) = [init ++ ['?'], []] := by
  induction init with
  | nil => simp [chunkAfterQ]
  | cons a init ih =>
    have ha : ¬ a = '?' := fun hh => h (hh ▸ List.mem_cons_self a init)
    have h' : '?' ∉ init := fun hh => h (List.mem_cons_of_mem a hh)
    show chunkAfterQ (a :: (init ++ ['?'])) = _
    unfold chunkAfterQ
    rw [if_neg ha, ih h']
    simp

/-- A text whose single `'?'` is its last character is one chunk (plus the
empty trailing chunk). -/
lemma chunkAfterQ_single {t : List Char} (hne : t ≠ [])
    (hlast : t.getLast? = some '?') (hcount : t.count '?' = 1) :
    chunkAfterQ t = [t, []] := by
  have hlast' : t.getLast hne = '?' := by
    rw [List.getLast?_eq_getLast_of_ne_nil hne, Option.some.injEq] at hlast
    exact hlast
  have ht : t.dropLast ++ ['?'] = t := by
    have h0 := List.dropLast_append_getLast hne
    rw [hlast'] at h0
    exact h0
  have hnq : '?' ∉ t.dropLast := by
    intro hmem
    have h1 : 0 < t.dropLast.count '?' := List.count_pos_iff.mpr hmem
    have h2 : t.count '?' = t.dropLast.count '?' + 1 := by
      conv_lhs => rw [← ht]
      rw [List.count_append]
      simp
    omega
  rw [← ht]
  exact chunkAfterQ_append_q t.dropLast hnq

/-- Re-splitting a stripped text whose single `'?'` is its last character
reproduces the original segment exactly. -/
lemma splitByQuestions_single {t : List Char} (a b : ℚ) (hne : t ≠ [])
    (hlast : t.getLast? = some '?') (hcount : t.count '?' = 1)
    (hstrip : stripL t = t) :
    splitByQuestions t a b = [⟨a, b, t⟩] := by
  have hq : '?' ∈ t := List.count_pos_iff.mp (by omega)
  have hch : chunkAfterQ t = [t, []] := chunkAfterQ_single hne hlast hcount
  have hL : t.length ≠ 0 := by
    intro h0
    exact hne (List.length_eq_zero.mp h0)
  have hLQ : ((t.length : ℚ)) ≠ 0 := Nat.cast_ne_zero.mpr hL
  rw [splitByQuestions_eq_emit a b hq, hch, hcount]
  have hgen : ∀ (c : List Char) (rest : List (List Char)) (k : ℕ),
      emitChunks a (b - a) t.length 1 (c :: rest) k =
        if stripL c = [] then emitChunks a (b - a) t.length 1 rest k
        else
          ⟨a + ((b - a) - (b - a) * ((c.length : ℚ) / (t.length : ℚ))) *
              ((k : ℚ) / ((max 1 1 : ℕ) : ℚ)),
            a + ((b - a) - (b - a) * ((c.length : ℚ) / (t.length : ℚ))) *
              ((k : ℚ) / ((max 1 1 : ℕ) : ℚ)) +
              (b - a) * ((c.length : ℚ) / (t.length : ℚ)),
            stripL c⟩ :: emitChunks a (b - a) t.length 1 rest (k + 1) :=
    fun c rest k => rfl
  rw [hgen t [[]] 0, if_neg (by rw [hstrip]; exact hne),
    hgen [] [] 1, if_pos (by decide)]
  have hnil : emitChunks a (b - a) t.length 1 [] 1 = [] := rfl
  rw [hnil]
  congr 1
  have hr : ((t.length : ℚ) / (t.length : ℚ)) = 1 := div_self hLQ
  rw [hstrip]
  simp only [hr]
  norm_num

/-- `_segment_dialogue` distributes over concatenation. -/
lemma segmentDialogue_append (m : ℕ) (xs ys : List Seg) :
    segmentDialogue m (xs ++ ys) =
      segmentDialogue m xs ++ segmentDialogue m ys := by
  induction xs with
  | nil => rfl
  | cons s xs ih =>
    show (if '?' ∈ stripL s.text ∧ m < (stripL s.text).length then
        splitByQuestions (stripL s.text) s.start s.stop else [s]) ++
        segmentDialogue m (xs ++ ys) =
      ((if '?' ∈ stripL s.text ∧ m < (stripL s.text).length then
        splitByQuestions (stripL s.text) s.start s.stop else [s]) ++
        segmentDialogue m xs) ++ segmentDialogue m ys
    rw [ih, List.append_assoc]

/-- `_segment_dialogue` leaves a list unchanged when each of its per-fragment
blocks is the fragment itself. -/
lemma segmentDialogue_of_blocks (m : ℕ) (L : List Seg)
    (h : ∀ p ∈ L,
      (if '?' ∈ stripL p.text ∧ m < (stripL p.text).length then
        splitByQuestions (stripL p.text) p.start p.stop else [p]) = [p]) :
    segmentDialogue m L = L := by
  induction L with
  | nil => rfl
  | cons p L ih =>
    show (if '?' ∈ stripL p.text ∧ m < (stripL p.text).length then
        splitByQuestions (stripL p.text) p.start p.stop else [p]) ++
        segmentDialogue m L = p :: L
    rw [h p (List.mem_cons_self p L),
      ih (fun x hx => h x (List.mem_cons_of_mem p hx))]
    rfl

/-- Every sub-segment emitted by `_split_by_questions` is its own dialogue
block: its text is a stripped chunk with at most one `'?'`, at the end, so a
re-split reproduces it. -/
lemma splitByQuestions_piece_id {text : List Char} {s e : ℚ} (hq : '?' ∈ text)
    (m : ℕ) :
    ∀ p ∈ splitByQuestions text s e,
      (if '?' ∈ stripL p.text ∧ m < (stripL p.text).length then
        splitByQuestions (stripL p.text) p.start p.stop else [p]) = [p] := by
  intro p hp
  have hmemtext : p.text ∈ (splitByQuestions text s e).map Seg.text :=
    List.mem_map_of_mem Seg.text hp
  rw [splitByQuestions_eq_emit s e hq,
    (emitChunks_map s (e - s) text.length (text.count '?')
      (chunkAfterQ text) 0).1] at hmemtext
  obtain ⟨c, hcf, hct⟩ := List.mem_map.mp hmemtext
  have hcmem : c ∈ chunkAfterQ text := List.mem_of_mem_filter hcf
  have hpstrip : stripL p.text = p.text := by
    rw [← hct]
    exact stripL_idem c
  by_cases hcond : '?' ∈ stripL p.text ∧ m < (stripL p.text).length
  · rw [if_pos hcond]
    have hqp : '?' ∈ p.text := by
      rw [← hpstrip]
      exact hcond.1
    have hqc : '?' ∈ c := by
      rw [← hct] at hqp
      exact (stripL_sublist c).subset hqp
    have hstruct := chunkAfterQ_structure text c hcmem
    have hlastc : c.getLast? = some '?' := hstruct.2 hqc
    have hlastp : p.text.getLast? = some '?' := by
      rw [← hct]
      exact getLast?_stripL hlastc (by decide)
    have hqp' : '?' ∈ p.text := by
      rw [← hct] at hqp ⊢
      exact hqp
    have hcount : p.text.count '?' = 1 := by
      have hle : p.text.count '?' ≤ c.count '?' := by
        rw [← hct]
        exact (stripL_sublist c).count_le '?'
      have hge : 0 < p.text.count '?' := List.count_pos_iff.mpr hqp'
      have h1 := hstruct.1
      omega
    have hne : p.text ≠ [] := by
      intro h0
      rw [h0] at hqp'
      simp at hqp'
    rw [hpstrip, splitByQuestions_single p.start p.stop hne hlastp hcount hpstrip]
  · rw [if_neg hcond]

/-- C3, amended: idempotence holds for the dialogue strategy outright and for
the technical strategy on lists whose stripped texts are within `max_chars`
(the claim's own bound hypothesis); the lecture strategy returns a list
unchanged when its texts are strip-invariant and every adjacent pair's
recounted sentence counts together overflow `sentences_per_segment + 1`.
(Unrestricted idempotence fails for the lecture and default strategies, as
the counterexample shows.) -/
theorem C3_segment_idempotence_amended :
    (∀ (maxChars : ℕ) (segs : List Seg),
      segmentDialogue maxChars (segmentDialogue maxChars segs) =
        segmentDialogue maxChars segs) ∧
    (∀ (split : Seg → List Seg) (maxChars : ℕ) (segs : List Seg),
      (∀ s ∈ segs, (stripL s.text).length ≤ maxChars) →
      segmentTechnical split maxChars segs = segs) ∧
    (∀ (sps : ℕ) (segs : List Seg),
      (∀ s ∈ segs, stripL s.text = s.text) →
      List.Chain' (fun a b => sps + 1 < sentenceCount a.text + sentenceCount b.text)
        segs →
      segmentLecture sps segs = segs) := by
  refine ⟨?_, ?_, ?_⟩
  · intro m segs
    induction segs with
    | nil => rfl
    | cons s rest ih =>
      have hd : segmentDialogue m (s :: rest) =
          (if '?' ∈ stripL s.text ∧ m < (stripL s.text).length then
            splitByQuestions (stripL s.text) s.start s.stop else [s]) ++
          segmentDialogue m rest := rfl
      rw [hd, segmentDialogue_append, ih]
      congr 1
      by_cases hcond : '?' ∈ stripL s.text ∧ m < (stripL s.text).length
      · rw [if_pos hcond]
        exact segmentDialogue_of_blocks m _ (splitByQuestions_piece_id hcond.1 m)
      · rw [if_neg hcond]
        show (if '?' ∈ stripL s.text ∧ m < (stripL s.text).length then
            splitByQuestions (stripL s.text) s.start s.stop else [s]) ++
            segmentDialogue m [] = [s]
        rw [if_neg hcond]
        rfl
  · intro f m segs hb
    induction segs with
    | nil => rfl
    | cons s rest ih =>
      show (if m < (stripL s.text).length then f s else [s]) ++
          segmentTechnical f m rest = s :: rest
      rw [if_neg (by have := hb s (List.mem_cons_self s rest); omega),
        ih (fun x hx => hb x (List.mem_cons_of_mem s hx))]
      rfl
  · intro sps segs hstrip hchain
    cases segs with
    | nil => rfl
    | cons s rest =>
      have hs : stripL s.text = s.text := hstrip s (List.mem_cons_self s rest)
      show lectureLoop sps ⟨s.start, s.stop, stripL s.text⟩
        (sentenceCount (stripL s.text)) rest = s :: rest
      have heta : (⟨s.start, s.stop, stripL s.text⟩ : Seg) = s := by rw [hs]
      rw [heta]
      apply lectureLoop_id sps rest s (sentenceCount (stripL s.text))
        (fun x hx => hstrip x (List.mem_cons_of_mem s hx))
      · intro h
        have := (List.chain'_cons'.mp hchain).1 (rest.head h) (List.head?_eq_head h)
        rw [hs]
        omega
      · exact (List.chain'_cons'.mp hchain).2

/-- C3, witness: the amended theorem applied at concrete inputs — a dialogue
list containing a question, and singleton lists for the technical and lecture
strategies. -/
theorem C3_segment_idempotence_amended_witness :
    segmentDialogue 80 (segmentDialogue 80 [⟨0, 1, "Hello?".toList⟩]) =
      segmentDialogue 80 [⟨0, 1, "Hello?".toList⟩] ∧
    segmentTechnical (fun s => [s]) 120 [⟨0, 1, "Hello.".toList⟩] =
      [⟨0, 1, "Hello.".toList⟩] ∧
    segmentLecture 2 [⟨0, 1, "Hello.".toList⟩] = [⟨0, 1, "Hello.".toList⟩] :=
  ⟨C3_segment_idempotence_amended.1 80 [⟨0, 1, "Hello?".toList⟩],
    C3_segment_idempotence_amended.2.1 (fun s => [s]) 120
      [⟨0, 1, "Hello.".toList⟩] (by decide),
    C3_segment_idempotence_amended.2.2 2 [⟨0, 1, "Hello.".toList⟩]
      (by decide) (by simp)⟩

/-! ## `QualityEvaluator.evaluate` (claim C7)

`advanced_processor.py`, lines 444–661.  The evaluator uses `math.log`,
`math.exp` and `math.sqrt`, so this part of the embedding lives over the
reals (and is therefore noncomputable); everything else is modelled exactly.
Python sets of words are modelled as deduplicated token lists, `Counter`
n-gram dictionaries as lists of n-grams with `List.count`. -/

noncomputable section

open Classical

structure EvalSeg where
  start : ℝ
  stop : ℝ
  text : String

/-- Python `text.lower().split()`. -/
def tokenize (s : String) : List String :=
  (s.toLower.split Char.isWhitespace).filter (· ≠ "")

/-- Model of `_get_ngrams`: the `n`-gram list of a token list (empty when there are
fewer than `n` tokens). -/
def ngramList (toks : List String) (n : ℕ) : List (List String) :=
  if toks.length < n then []
  else (List.range (toks.length - n + 1)).map fun i => (toks.drop i).take n

/-- Model of `matches = sum(min(cand_ngrams[ng], ref_ngrams.get(ng, 0)) for ng in cand_ngrams)`. -/
def bleuMatches (cand ref : List (List String)) : ℕ :=
  (cand.dedup.map fun ng => min (cand.count ng) (ref.count ng)).sum

/-- The 1- to 4-gram precisions of one candidate/reference pair
(`for n in range(1, min(5, len(cand_tokens) + 1))`, skipping empty n-gram
sets). -/
def pairPrecisions (cand ref : List String) : List ℝ :=
  ((List.range (min 4 cand.length)).map (· + 1)).filterMap fun n =>
    if ngramList cand n = [] then none
    else some ((bleuMatches (ngramList cand n) (ngramList ref n) : ℝ) /
      ((ngramList cand n).length : ℝ))

/-- The contribution of one candidate/reference pair to `total_score`
(0 when the pair is skipped): brevity penalty times the geometric mean
`exp(mean(log(p + 1e-10)))`. -/
def pairScore (cand ref : List String) : ℝ :=
  if cand = [] ∨ ref = [] then 0
  else if pairPrecisions cand ref = [] then 0
  else
    min 1 (Real.exp (1 - (ref.length : ℝ) / ((max cand.length 1 : ℕ) : ℝ))) *
      Real.exp (((pairPrecisions cand ref).map fun p => Real.log (p + 1/10^10)).sum /
        ((pairPrecisions cand ref).length : ℝ))

/-- Model of `QualityEvaluator._calculate_bleu`. -/
def calcBleu (cands refs : List String) : ℝ :=
  if cands.length ≠ refs.length then 0
  else
    roundTo
      (((cands.zip refs).map fun p => pairScore (tokenize p.1) (tokenize p.2)).sum /
        ((max cands.length 1 : ℕ) : ℝ)) 3

/-- Model of `QualityEvaluator._calculate_timestamp_error`. -/
def calcTimestampError (orig aligned : List EvalSeg) : ℝ :=
  if orig = [] ∨ aligned = [] then 0
  else
    if ((orig.zip aligned).map fun p =>
        (|p.1.start - p.2.start| + |p.1.stop - p.2.stop|) / 2) = [] then 0
    else
      roundTo
        (((orig.zip aligned).map fun p =>
            (|p.1.start - p.2.start| + |p.1.stop - p.2.stop|) / 2).sum /
          (((orig.zip aligned).map fun p =>
            (|p.1.start - p.2.start| + |p.1.stop - p.2.stop|) / 2).length : ℝ)) 3

/-- The per-adjacent-pair Jaccard overlaps of `_calculate_coherence`. -/
def coherencePairs (texts : List String) : List ℝ :=
  (texts.zip texts.tail).filterMap fun p =>
    if (tokenize p.1).dedup = [] ∨ (tokenize p.2).dedup = [] then none
    else
      if 0 < (((tokenize p.1).dedup ++ (tokenize p.2).dedup).dedup).length then
        some ((((tokenize p.1).dedup.filter (· ∈ (tokenize p.2).dedup)).length : ℝ) /
          ((((tokenize p.1).dedup ++ (tokenize p.2).dedup).dedup).length : ℝ))
      else none

/-- Model of `QualityEvaluator._calculate_coherence`: mean Jaccard overlap, rescaled
so 0.2 maps to 1.0, capped at 1. -/
def calcCoherence (texts : List String) : ℝ :=
  if texts.length < 2 then 1
  else
    roundTo (min ((if coherencePairs texts = [] then 0
      else (coherencePairs texts).sum / ((coherencePairs texts).length : ℝ)) / (2/10)) 1) 3

/-- Model of `QualityEvaluator._calculate_fragmentation`: 0.6·(ratio of short texts)
plus 0.4·(coefficient of variation capped at 1). -/
def calcFragmentation (segs : List EvalSeg) : ℝ :=
  if segs = [] then 0
  else
    roundTo
      ((((segs.map fun s => s.text.length).filter (· < 20)).length : ℝ) /
          (segs.length : ℝ) * (6/10) +
        min (if 0 < ((segs.map fun s => s.text.length).sum : ℝ) / (segs.length : ℝ) then
            Real.sqrt (((segs.map fun s => s.text.length).map fun l =>
              ((l : ℝ) - ((segs.map fun s => s.text.length).sum : ℝ) /
                (segs.length : ℝ)) ^ 2).sum / (segs.length : ℝ)) /
              (((segs.map fun s => s.text.length).sum : ℝ) / (segs.length : ℝ))
          else 0) 1 * (4/10)) 3

/-- Model of `results["bleu_score"]`: present only when a non-empty reference list was
passed (`if reference_translation:`). -/
def bleuOf (trans : List EvalSeg) (ref : Option (List String)) : Option ℝ :=
  match ref with
  | some r => if r = [] then none else some (calcBleu (trans.map fun s => s.text) r)
  | none => none

/-- Model of `results["timestamp_error"]`: computed only when `aligned_segments` is
non-empty (`if aligned_segments:`). -/
def tsErrOf (orig aligned : List EvalSeg) : ℝ :=
  if aligned = [] then 0 else calcTimestampError orig aligned

/-- The `scores` list averaged into `overall_score`. -/
def scoresOf (orig trans aligned : List EvalSeg) (ref : Option (List String)) : List ℝ :=
  (match bleuOf trans ref with | some b => [b] | none => []) ++
    [max 0 (1 - tsErrOf orig aligned / (1/2)),
      calcCoherence (trans.map fun s => s.text),
      1 - calcFragmentation trans]

structure EvalResult where
  overall : ℝ
  bleu : Option ℝ
  tsError : ℝ
  coherence : ℝ
  fragmentation : ℝ

/-- Model of `QualityEvaluator.evaluate` (the `details` dictionary is omitted). -/
def qualityEvaluate (orig trans aligned : List EvalSeg)
    (ref : Option (List String)) : EvalResult :=
  ⟨if scoresOf orig trans aligned ref = [] then 0
    else roundTo ((scoresOf orig trans aligned ref).sum /
      ((scoresOf orig trans aligned ref).length : ℝ)) 3,
    bleuOf trans ref,
    tsErrOf orig aligned,
    calcCoherence (trans.map fun s => s.text),
    calcFragmentation trans⟩

end

lemma roundTo3_le_one_of_le {x : ℝ} (hx : x ≤ 1 + 1/10^10) : roundTo x 3 ≤ 1 := by
  unfold roundTo
  have h2 : round ((1 + 1/10^10 : ℝ) * 10 ^ 3) = 1000 := by
    rw [round_eq]
    apply Int.floor_eq_iff.mpr
    constructor <;> norm_num
  have h1 : round (x * 10 ^ 3) ≤ 1000 := by
    rw [← h2]
    exact round_le_round (by nlinarith)
  rw [div_le_one (by positivity)]
  calc ((round (x * 10 ^ 3) : ℤ) : ℝ) ≤ ((1000 : ℤ) : ℝ) := by exact_mod_cast h1
    _ ≤ 10 ^ 3 := by norm_num

lemma count_beq_instances (ng : List String) (cand : List (List String)) :
    @List.count _ List.instBEq ng cand =
      @List.count _ instBEqOfDecidableEq ng cand := by
  have h : (List.instBEq : BEq (List String)) = instBEqOfDecidableEq :=
    lawful_beq_subsingleton _ _
  rw [h]

lemma bleuMatches_le_length (cand ref : List (List String)) :
    bleuMatches cand ref ≤ cand.length := by
  unfold bleuMatches
  calc (cand.dedup.map fun ng => min (cand.count ng) (ref.count ng)).sum
      ≤ (cand.dedup.map fun ng => cand.count ng).sum := by
        apply List.sum_le_sum
        intro ng _
        exact min_le_left _ _
    _ = cand.length := by
        have h := List.sum_map_count_dedup_eq_length cand
        rw [← h]
        congr 1
        apply List.map_congr_left
        intro ng _
        exact count_beq_instances ng cand

lemma pairPrecisions_mem (cand ref : List String) :
    ∀ p ∈ pairPrecisions cand ref, 0 ≤ p ∧ p ≤ 1 := by
  intro p hp
  unfold pairPrecisions at hp
  rw [List.mem_filterMap] at hp
  obtain ⟨n, _, hn⟩ := hp
  split at hn
  · simp at hn
  · next hne =>
    have hp' : p = (bleuMatches (ngramList cand n) (ngramList ref n) : ℝ) /
        ((ngramList cand n).length : ℝ) := (Option.some.inj hn).symm
    subst hp'
    have hlen : 0 < (ngramList cand n).length := List.length_pos.mpr hne
    constructor
    · positivity
    · rw [div_le_one (by exact_mod_cast hlen)]
      exact_mod_cast bleuMatches_le_length (ngramList cand n) (ngramList ref n)

lemma pairScore_nonneg (cand ref : List String) : 0 ≤ pairScore cand ref := by
  unfold pairScore
  split
  · exact le_refl 0
  split
  · exact le_refl 0
  · exact mul_nonneg (le_min zero_le_one (Real.exp_pos _).le) (Real.exp_pos _).le

lemma pairScore_le (cand ref : List String) : pairScore cand ref ≤ 1 + 1/10^10 := by
  unfold pairScore
  split
  · norm_num
  split
  · norm_num
  · next h1 h2 =>
    have hlen : 0 < (pairPrecisions cand ref).length := List.length_pos.mpr h2
    have hlp : ((pairPrecisions cand ref).map fun p => Real.log (p + 1/10^10)).sum /
        ((pairPrecisions cand ref).length : ℝ) ≤ Real.log (1 + 1/10^10) := by
      rw [div_le_iff₀ (by exact_mod_cast hlen)]
      calc ((pairPrecisions cand ref).map fun p => Real.log (p + 1/10^10)).sum
          ≤ ((pairPrecisions cand ref).map fun p => Real.log (p + 1/10^10)).length •
              Real.log (1 + 1/10^10) := by
            apply List.sum_le_card_nsmul
            intro x hx
            rw [List.mem_map] at hx
            obtain ⟨q, hq, rfl⟩ := hx
            obtain ⟨hq0, hq1⟩ := pairPrecisions_mem cand ref q hq
            exact Real.log_le_log (by positivity) (by linarith)
        _ = Real.log (1 + 1/10^10) * ((pairPrecisions cand ref).length : ℝ) := by
            rw [List.length_map, nsmul_eq_mul]
            ring
    have hexp : Real.exp (((pairPrecisions cand ref).map
        fun p => Real.log (p + 1/10^10)).sum /
          ((pairPrecisions cand ref).length : ℝ)) ≤ 1 + 1/10^10 := by
      calc Real.exp _ ≤ Real.exp (Real.log (1 + 1/10^10)) := Real.exp_le_exp.mpr hlp
        _ = 1 + 1/10^10 := Real.exp_log (by norm_num)
    have hbp1 : min 1 (Real.exp (1 - (ref.length : ℝ) /
        ((max cand.length 1 : ℕ) : ℝ))) ≤ 1 := min_le_left _ _
    have hbp0 : 0 ≤ min 1 (Real.exp (1 - (ref.length : ℝ) /
        ((max cand.length 1 : ℕ) : ℝ))) := le_min zero_le_one (Real.exp_pos _).le
    nlinarith [Real.exp_pos (((pairPrecisions cand ref).map
      fun p => Real.log (p + 1/10^10)).sum / ((pairPrecisions cand ref).length : ℝ))]

lemma calcBleu_mem (cands refs : List String) :
    0 ≤ calcBleu cands refs ∧ calcBleu cands refs ≤ 1 := by
  unfold calcBleu
  split
  · norm_num
  · next hlen =>
    have hmax : (1 : ℝ) ≤ ((max cands.length 1 : ℕ) : ℝ) := by
      have : 1 ≤ max cands.length 1 := le_max_right _ _
      exact_mod_cast this
    constructor
    · apply roundTo_nonneg
      apply div_nonneg
      · apply List.sum_nonneg
        intro x hx
        rw [List.mem_map] at hx
        obtain ⟨q, _, rfl⟩ := hx
        exact pairScore_nonneg _ _
      · linarith
    · apply roundTo3_le_one_of_le
      have hsum : ((cands.zip refs).map
          fun p => pairScore (tokenize p.1) (tokenize p.2)).sum ≤
          ((cands.zip refs).length : ℝ) * (1 + 1/10^10) := by
        calc ((cands.zip refs).map fun p => pairScore (tokenize p.1) (tokenize p.2)).sum
            ≤ ((cands.zip refs).map
                fun p => pairScore (tokenize p.1) (tokenize p.2)).length •
                ((1 : ℝ) + 1/10^10) := by
              apply List.sum_le_card_nsmul
              intro x hx
              rw [List.mem_map] at hx
              obtain ⟨q, _, rfl⟩ := hx
              exact pairScore_le _ _
          _ = ((cands.zip refs).length : ℝ) * (1 + 1/10^10) := by
              rw [List.length_map, nsmul_eq_mul]
      have hziplen : ((cands.zip refs).length : ℝ) ≤ ((max cands.length 1 : ℕ) : ℝ) := by
        have h1 : (cands.zip refs).length ≤ cands.length := by
          rw [List.length_zip]
          exact min_le_left _ _
        have h2 : cands.length ≤ max cands.length 1 := le_max_left _ _
        exact_mod_cast le_trans h1 h2
      rw [div_le_iff₀ (by linarith)]
      nlinarith

lemma tsErrOf_nonneg (orig aligned : List EvalSeg) : 0 ≤ tsErrOf orig aligned := by
  unfold tsErrOf calcTimestampError
  split
  · exact le_refl 0
  split
  · norm_num
  split
  · norm_num
  · apply roundTo_nonneg
    apply div_nonneg
    · apply List.sum_nonneg
      intro x hx
      rw [List.mem_map] at hx
      obtain ⟨q, _, rfl⟩ := hx
      positivity
    · positivity

lemma calcCoherence_mem (texts : List String) :
    0 ≤ calcCoherence texts ∧ calcCoherence texts ≤ 1 := by
  unfold calcCoherence
  split
  · norm_num
  · have havg : 0 ≤ (if coherencePairs texts = [] then 0
        else (coherencePairs texts).sum / ((coherencePairs texts).length : ℝ)) := by
      split
      · exact le_refl 0
      · apply div_nonneg
        · apply List.sum_nonneg
          intro x hx
          unfold coherencePairs at hx
          rw [List.mem_filterMap] at hx
          obtain ⟨q, _, hq⟩ := hx
          split at hq
          · simp at hq
          · split at hq
            · have := (Option.some.inj hq).symm
              subst this
              positivity
            · simp at hq
        · positivity
    refine ⟨roundTo_nonneg 3 ?_, roundTo_le_one 3 (min_le_right _ _)⟩
    exact le_min (by positivity) zero_le_one

lemma calcFragmentation_mem (segs : List EvalSeg) :
    0 ≤ calcFragmentation segs ∧ calcFragmentation segs ≤ 1 := by
  unfold calcFragmentation
  split
  · norm_num
  · next hne =>
    have hlen : (0 : ℝ) < (segs.length : ℝ) := by
      have : 0 < segs.length := List.length_pos.mpr hne
      exact_mod_cast this
    have hsr0 : 0 ≤ (((segs.map fun s => s.text.length).filter (· < 20)).length : ℝ) /
        (segs.length : ℝ) := by positivity
    have hsr1 : (((segs.map fun s => s.text.length).filter (· < 20)).length : ℝ) /
        (segs.length : ℝ) ≤ 1 := by
      rw [div_le_one hlen]
      have h1 : ((segs.map fun s => s.text.length).filter (· < 20)).length ≤
          (segs.map fun s => s.text.length).length := List.length_filter_le _ _
      rw [List.length_map] at h1
      exact_mod_cast h1
    have hcv0 : 0 ≤ (if 0 < ((segs.map fun s => s.text.length).sum : ℝ) /
        (segs.length : ℝ) then
          Real.sqrt (((segs.map fun s => s.text.length).map fun l =>
            ((l : ℝ) - ((segs.map fun s => s.text.length).sum : ℝ) /
              (segs.length : ℝ)) ^ 2).sum / (segs.length : ℝ)) /
            (((segs.map fun s => s.text.length).sum : ℝ) / (segs.length : ℝ))
        else 0) := by
      split
      · next havg => exact div_nonneg (Real.sqrt_nonneg _) havg.le
      · exact le_refl 0
    constructor
    · apply roundTo_nonneg
      have := le_min hcv0 zero_le_one
      nlinarith [le_min hcv0 zero_le_one]
    · apply roundTo_le_one
      have hmin1 : min (if 0 < ((segs.map fun s => s.text.length).sum : ℝ) /
          (segs.length : ℝ) then
            Real.sqrt (((segs.map fun s => s.text.length).map fun l =>
              ((l : ℝ) - ((segs.map fun s => s.text.length).sum : ℝ) /
                (segs.length : ℝ)) ^ 2).sum / (segs.length : ℝ)) /
              (((segs.map fun s => s.text.length).sum : ℝ) / (segs.length : ℝ))
          else 0) 1 ≤ 1 := min_le_right _ _
      have hmin0 := le_min hcv0 zero_le_one
      nlinarith

/-- C7: every component of the quality evaluation lies in [0,1] — the
(rounded) BLEU score when a reference is present, the timestamp-derived score
`max(0, 1 - timestamp_error/0.5)`, the coherence score and
`1 - fragmentation_score` — and so does the aggregated `overall_score`. -/
theorem C7_quality_scores_bounded (orig trans aligned : List EvalSeg)
    (ref : Option (List String)) :
    (0 ≤ (qualityEvaluate orig trans aligned ref).bleu.getD 0 ∧
      (qualityEvaluate orig trans aligned ref).bleu.getD 0 ≤ 1) ∧
    (0 ≤ max 0 (1 - (qualityEvaluate orig trans aligned ref).tsError / (1/2)) ∧
      max 0 (1 - (qualityEvaluate orig trans aligned ref).tsError / (1/2)) ≤ 1) ∧
    (0 ≤ (qualityEvaluate orig trans aligned ref).coherence ∧
      (qualityEvaluate orig trans aligned ref).coherence ≤ 1) ∧
    (0 ≤ 1 - (qualityEvaluate orig trans aligned ref).fragmentation ∧
      1 - (qualityEvaluate orig trans aligned ref).fragmentation ≤ 1) ∧
    (0 ≤ (qualityEvaluate orig trans aligned ref).overall ∧
      (qualityEvaluate orig trans aligned ref).overall ≤ 1) := by
  have hbleu : 0 ≤ (bleuOf trans ref).getD 0 ∧ (bleuOf trans ref).getD 0 ≤ 1 := by
    cases ref with
    | none => norm_num [bleuOf]
    | some r =>
      rw [show bleuOf trans (some r) = (if r = [] then none
        else some (calcBleu (trans.map fun s => s.text) r)) from rfl]
      split
      · norm_num
      · simpa using calcBleu_mem (trans.map fun s => s.text) r
  have hts0 := tsErrOf_nonneg orig aligned
  have htsc : 0 ≤ max 0 (1 - tsErrOf orig aligned / (1/2)) ∧
      max 0 (1 - tsErrOf orig aligned / (1/2)) ≤ 1 := by
    constructor
    · exact le_max_left _ _
    · apply max_le
      · norm_num
      · nlinarith
  have hcoh := calcCoherence_mem (trans.map fun s => s.text)
  have hfrag := calcFragmentation_mem trans
  have hscores : ∀ x ∈ scoresOf orig trans aligned ref, 0 ≤ x ∧ x ≤ 1 := by
    intro x hx
    unfold scoresOf at hx
    rw [List.mem_append] at hx
    rcases hx with hx | hx
    · match href : bleuOf trans ref with
      | none => rw [href] at hx; simp at hx
      | some b =>
        rw [href] at hx
        rw [List.mem_singleton] at hx
        subst hx
        rw [href] at hbleu
        simpa using hbleu
    · rcases List.mem_cons.mp hx with hx | hx
      · subst hx; exact htsc
      · rcases List.mem_cons.mp hx with hx | hx
        · subst hx; exact hcoh
        · rw [List.mem_singleton] at hx
          subst hx
          exact ⟨by linarith [hfrag.2], by linarith [hfrag.1]⟩
  have hoverall : 0 ≤ (qualityEvaluate orig trans aligned ref).overall ∧
      (qualityEvaluate orig trans aligned ref).overall ≤ 1 := by
    rw [show (qualityEvaluate orig trans aligned ref).overall =
      (if scoresOf orig trans aligned ref = [] then (0:ℝ)
        else roundTo ((scoresOf orig trans aligned ref).sum /
          ((scoresOf orig trans aligned ref).length : ℝ)) 3) from rfl]
    split
    · norm_num
    · next hne =>
      have hlen : (0 : ℝ) < ((scoresOf orig trans aligned ref).length : ℝ) := by
        have : 0 < (scoresOf orig trans aligned ref).length := List.length_pos.mpr hne
        exact_mod_cast this
      constructor
      · apply roundTo_nonneg
        apply div_nonneg _ hlen.le
        apply List.sum_nonneg
        intro x hx
        exact (hscores x hx).1
      · apply roundTo_le_one
        rw [div_le_one hlen]
        calc (scoresOf orig trans aligned ref).sum
            ≤ (scoresOf orig trans aligned ref).length • (1 : ℝ) := by
              apply List.sum_le_card_nsmul
              intro x hx
              exact (hscores x hx).2
          _ = ((scoresOf orig trans aligned ref).length : ℝ) := by
              rw [nsmul_eq_mul, mul_one]
  have hfrag2 : 0 ≤ (qualityEvaluate orig trans aligned ref).fragmentation ∧
      (qualityEvaluate orig trans aligned ref).fragmentation ≤ 1 := hfrag
  exact ⟨hbleu, htsc, hcoh, ⟨by linarith [hfrag2.2], by linarith [hfrag2.1]⟩, hoverall⟩
